import Mathlib

/-!
# A shallow embedding of the go-ssz codec core

This file embeds the SSZ marshaler, the draft unmarshalers, the merkleization
engine and the two caches of the repository into Lean, and proves the frozen
claims about them.  Machine integers are modelled as `Nat` with explicit
`% 2^w` where Go's conversions truncate; byte buffers are `List Nat`;
fallible Go functions return `Except Err`.  SHA-256 is out of scope of the
spec and is treated as an abstract parameter `H : List Nat → List Nat`
mapping a 64-byte input to a 32-byte output.
-/

set_option maxHeartbeats 1000000

namespace SSZ

/-- Error kinds surfacing from the codec (Go returns `error` values;
runtime panics from out-of-range slice expressions are modelled as the
distinguished `panicOOB`). -/
inductive Err where
  | untypedNil
  | unserializable
  | undeserializable
  | truncated
  | unsupported
  | panicOOB
  | nonList
deriving DecidableEq, Repr

mutual
/-- The SSZ type descriptor: the resolved shape of a Go type after
`ssz-size`/`ssz-max` tag resolution.  `slice .uint8` is `[]byte`,
`array .uint8 n` is `[n]byte`. -/
inductive Ty where
  | bool
  | uint8
  | uint16
  | uint32
  | uint64
  | int32
  | slice (elem : Ty)
  | array (elem : Ty) (n : Nat)
  | strukt (fields : List SField)
  | ptr (elem : Ty)

/-- A resolved struct field: its (tag-resolved) type and its `ssz-max`
capacity (0 when the tag is absent). -/
inductive SField where
  | mk (ty : Ty) (capacity : Nat)
end

/-- The field's resolved type. -/
def SField.ty : SField → Ty
  | .mk t _ => t

/-- The field's `ssz-max` capacity. -/
def SField.capacity : SField → Nat
  | .mk _ c => c

/-- Runtime values.  Scalars carry their numeric payload; slices, arrays and
structs carry their element/field values; pointers are either nil or carry
their referent. -/
inductive Val where
  | vbool (b : Bool)
  | vuint (n : Nat)
  | vlist (xs : List Val)
  | vstruct (fs : List Val)
  | vptrNil
  | vptrSome (v : Val)

mutual
/-- Boolean equality on type descriptors (Go compares `reflect.Type`
identities; this is the model's analogue). -/
def Ty.beq : Ty → Ty → Bool
  | .bool, .bool => true
  | .uint8, .uint8 => true
  | .uint16, .uint16 => true
  | .uint32, .uint32 => true
  | .uint64, .uint64 => true
  | .int32, .int32 => true
  | .slice a, .slice b => Ty.beq a b
  | .array a m, .array b n => Ty.beq a b && m == n
  | .strukt fs, .strukt gs => SField.beqList fs gs
  | .ptr a, .ptr b => Ty.beq a b
  | _, _ => false

/-- Boolean equality on field descriptor lists. -/
def SField.beqList : List SField → List SField → Bool
  | [], [] => true
  | .mk t c :: r, .mk t' c' :: r' => Ty.beq t t' && c == c' && SField.beqList r r'
  | _, _ => false
end

mutual
/-- Boolean equality on values (the model of a content fingerprint
comparison). -/
def Val.beq : Val → Val → Bool
  | .vbool a, .vbool b => a == b
  | .vuint a, .vuint b => a == b
  | .vlist xs, .vlist ys => Val.beqList xs ys
  | .vstruct xs, .vstruct ys => Val.beqList xs ys
  | .vptrNil, .vptrNil => true
  | .vptrSome a, .vptrSome b => Val.beq a b
  | _, _ => false

/-- Boolean equality on value lists. -/
def Val.beqList : List Val → List Val → Bool
  | [], [] => true
  | x :: r, y :: r' => Val.beq x y && Val.beqList r r'
  | _, _ => false
end

/-- Kind test used by the dispatchers (`typ.Elem().Kind() == reflect.Uint8`). -/
def kindIsUint8 : Ty → Bool
  | .uint8 => true
  | _ => false

/-- `BytesPerLengthOffset` from the source: offsets are 4-byte little-endian. -/
def BytesPerLengthOffset : Nat := 4

/-- Little-endian byte encoding of `v`'s lowest `w` bytes (the model of
`binary.LittleEndian.PutUintN` after Go's truncating conversion). -/
def leBytes : Nat → Nat → List Nat
  | 0, _ => []
  | w + 1, v => v % 256 :: leBytes w (v / 256)

/-- Little-endian read of `w` bytes of `l` starting at `off`
(out-of-range positions read as 0). -/
def readLEAt (l : List Nat) (off : Nat) : Nat → Nat
  | 0 => 0
  | w + 1 => l.getD off 0 + 256 * readLEAt l (off + 1) w

/-- Go's `copy(buf[a:b], src)`: the slice expression panics when the bounds
are invalid; otherwise `min (b - a) src.length` bytes are overwritten. -/
def copyAt (buf : List Nat) (a b : Nat) (src : List Nat) : Except Err (List Nat) :=
  if a ≤ b ∧ b ≤ buf.length then
    let k := min (b - a) src.length
    .ok (buf.take a ++ src.take k ++ buf.drop (a + k))
  else
    .error .panicOOB

/-- Go's `buf[off] = v` single-byte store. -/
def writeByte (buf : List Nat) (off v : Nat) : Except Err (List Nat) :=
  if off < buf.length then .ok (buf.set off v) else .error .panicOOB

/-- Wrapping `uint64` subtraction `a - b`, as computed by Go before the
`uint32` offset conversion. -/
def wsub64 (a b : Nat) : Nat :=
  (a % 2 ^ 64 + 2 ^ 64 - b % 2 ^ 64) % 2 ^ 64

/-- Numeric payload of a scalar value (`reflect.Value.Uint`). -/
def uintVal : Val → Nat
  | .vuint n => n
  | _ => 0

/-- Boolean payload of a value (`reflect.Value.Bool`). -/
def boolVal : Val → Bool
  | .vbool b => b
  | _ => false

/-- The raw bytes backing a `[]byte` value. -/
def bytesOfVals (xs : List Val) : List Nat :=
  xs.map uintVal

/-- Element list of a slice/array value (`reflect.Value.Index` iteration). -/
def listOf : Val → List Val
  | .vlist xs => xs
  | _ => []

/-- Field list of a struct value (`reflect.Value.Field` iteration). -/
def structOf : Val → List Val
  | .vstruct fs => fs
  | _ => []

/-! ## Spec-modelled type oracles

The helpers below live in repository files that are not under `src/`
(`ssz-utils`-style helper files); they are modelled from the spec. -/

/-- Modelled from the spec: `isBasicType` (missing helper file) — the basic
scalar kinds are bool and the unsigned integers. -/
def isBasicType : Ty → Bool
  | .bool | .uint8 | .uint16 | .uint32 | .uint64 => true
  | _ => false

/-- Modelled from the spec: `isBasicTypeArray` (missing helper file) — an
array whose element type is basic. -/
def isBasicTypeArray : Ty → Bool
  | .array e _ => isBasicType e
  | _ => false

mutual
/-- Modelled from the spec: `isVariableSizeType` (missing helper file) —
true iff the type is a list or transitively contains one. -/
def isVariableSizeType : Ty → Bool
  | .slice _ => true
  | .array e _ => isVariableSizeType e
  | .strukt fs => isVariableFields fs
  | .ptr e => isVariableSizeType e
  | _ => false

/-- Whether any field of a struct is variable-size. -/
def isVariableFields : List SField → Bool
  | [] => false
  | .mk t _ :: rest => isVariableSizeType t || isVariableFields rest
end

mutual
/-- Modelled from the spec: `determineFixedSize` (missing helper file) —
the serialized size of a fixed-size type; meaningful only on
non-variable types. -/
def determineFixedSize (_v : Val) (ty : Ty) : Nat :=
  match ty with
  | .bool => 1
  | .uint8 => 1
  | .uint16 => 2
  | .uint32 => 4
  | .int32 => 4
  | .uint64 => 8
  | .slice _ => 0
  | .array e n => n * determineFixedSize _v e
  | .strukt fs => fixedFieldsSize _v fs
  | .ptr e => determineFixedSize _v e

/-- Sum of the fixed parts of a struct's fields (4 bytes per
variable-size field). -/
def fixedFieldsSize (_v : Val) : List SField → Nat
  | [] => 0
  | .mk t _ :: rest =>
      (if isVariableSizeType t then BytesPerLengthOffset else determineFixedSize _v t)
        + fixedFieldsSize _v rest
end

mutual
/-- Modelled from the spec: `determineSize` (missing helper file) — the
total serialized byte length of a value, offset headers included. -/
def determineSize (v : Val) (ty : Ty) : Nat :=
  match ty, v with
  | .bool, _ => 1
  | .uint8, _ => 1
  | .uint16, _ => 2
  | .uint32, _ => 4
  | .int32, _ => 4
  | .uint64, _ => 8
  | .slice e, .vlist xs =>
      if kindIsUint8 e then xs.length
      else if isVariableSizeType e then sizeListVar xs e else sizeListFixed xs e
  | .array e _, .vlist xs =>
      if kindIsUint8 e then xs.length
      else if isVariableSizeType e then sizeListVar xs e else sizeListFixed xs e
  | .strukt fs, .vstruct vs => sizeFields vs fs
  | .ptr _, .vptrNil => 0
  | .ptr e, .vptrSome x => determineSize x e
  | _, _ => 0

/-- Total size of a list of variable-size elements: a 4-byte offset plus
the element's own size, per element. -/
def sizeListVar : List Val → Ty → Nat
  | [], _ => 0
  | x :: rest, e => BytesPerLengthOffset + determineSize x e + sizeListVar rest e

/-- Total size of a list of fixed-size elements. -/
def sizeListFixed : List Val → Ty → Nat
  | [], _ => 0
  | x :: rest, e => determineSize x e + sizeListFixed rest e

/-- Total size of a struct: fixed fields in place, variable fields as a
4-byte offset plus their tail. -/
def sizeFields : List Val → List SField → Nat
  | v :: vrest, .mk t _ :: frest =>
      (if isVariableSizeType t then BytesPerLengthOffset + determineSize v t
       else determineSize v t) + sizeFields vrest frest
  | _, _ => 0
end

/-! ## The marshaler (`src/marshal.go`, four-argument draft) -/

/-- `newMarshalBool` from `src/marshal.go`. -/
def newMarshalBool (v : Val) (buf : List Nat) (startOffset : Nat) :
    Except Err (Nat × List Nat) := do
  let buf' ← writeByte buf startOffset (if boolVal v then 1 else 0)
  .ok (startOffset + 1, buf')

/-- `newMarshalUint8` from `src/marshal.go`. -/
def newMarshalUint8 (v : Val) (buf : List Nat) (startOffset : Nat) :
    Except Err (Nat × List Nat) := do
  let buf' ← writeByte buf startOffset (uintVal v % 256)
  .ok (startOffset + 1, buf')

/-- `newMarshalUint16` from `src/marshal.go`. -/
def newMarshalUint16 (v : Val) (buf : List Nat) (startOffset : Nat) :
    Except Err (Nat × List Nat) := do
  let buf' ← copyAt buf startOffset (startOffset + 2) (leBytes 2 (uintVal v))
  .ok (startOffset + 2, buf')

/-- `newMarshalUint32` from `src/marshal.go`. -/
def newMarshalUint32 (v : Val) (buf : List Nat) (startOffset : Nat) :
    Except Err (Nat × List Nat) := do
  let buf' ← copyAt buf startOffset (startOffset + 4) (leBytes 4 (uintVal v))
  .ok (startOffset + 4, buf')

/-- `newMarshalUint64` from `src/marshal.go`. -/
def newMarshalUint64 (v : Val) (buf : List Nat) (startOffset : Nat) :
    Except Err (Nat × List Nat) := do
  let buf' ← copyAt buf startOffset (startOffset + 8) (leBytes 8 (uintVal v))
  .ok (startOffset + 8, buf')

/-- `newMarshalByteSlice` from `src/marshal.go` (the `bitfield` branch is out
of scope of the spec): copy the backing bytes and advance by the length. -/
def newMarshalByteSlice (v : Val) (buf : List Nat) (startOffset : Nat) :
    Except Err (Nat × List Nat) := do
  let slice := bytesOfVals (listOf v)
  let buf' ← copyAt buf startOffset (startOffset + slice.length) slice
  .ok (startOffset + slice.length, buf')

/-- `newMarshalByteArray` from `src/marshal.go`: bytes pass through Go's
`uint8` conversion before the copy. -/
def newMarshalByteArray (v : Val) (buf : List Nat) (startOffset : Nat) :
    Except Err (Nat × List Nat) := do
  let rawBytes := (listOf v).map (fun x => uintVal x % 256)
  let buf' ← copyAt buf startOffset (startOffset + rawBytes.length) rawBytes
  .ok (startOffset + rawBytes.length, buf')

mutual
/-- `newMakeMarshaler` from `src/marshal.go`: kind dispatch of the encoder.
Applying a reflective iteration (`val.Len()`, `val.Field`) to a value of the
wrong shape panics in Go; those cases surface as `panicOOB`. -/
def newMakeMarshaler (v : Val) (ty : Ty) (buf : List Nat) (startOffset : Nat) :
    Except Err (Nat × List Nat) :=
  match ty with
  | .bool => newMarshalBool v buf startOffset
  | .uint8 => newMarshalUint8 v buf startOffset
  | .uint16 => newMarshalUint16 v buf startOffset
  | .uint32 => newMarshalUint32 v buf startOffset
  | .uint64 => newMarshalUint64 v buf startOffset
  | .slice e =>
      if kindIsUint8 e then newMarshalByteSlice v buf startOffset
      else
        match v with
        | .vlist xs =>
            if isBasicTypeArray e || isBasicType e || !isVariableSizeType e then
              newmakeBasicSliceMarshaler xs e buf startOffset
            else if !isVariableSizeType (.slice e) then
              newmakeBasicSliceMarshaler xs e buf startOffset
            else
              marshalVarLoop xs e buf startOffset
                (startOffset + xs.length * BytesPerLengthOffset) startOffset
        | _ => .error .panicOOB
  | .array e n =>
      if kindIsUint8 e then newMarshalByteArray v buf startOffset
      else
        match v with
        | .vlist xs =>
            if !isVariableSizeType (.array e n) then
              newmakeBasicSliceMarshaler xs e buf startOffset
            else
              marshalVarLoop xs e buf startOffset
                (startOffset + xs.length * BytesPerLengthOffset) startOffset
        | _ => .error .panicOOB
  | .strukt fs =>
      match v with
      | .vstruct vs =>
          structMarshalLoop vs fs buf startOffset
            (startOffset + fixedFieldsSize (.vstruct vs) fs) startOffset
      | _ => .error .panicOOB
  | .ptr e =>
      match v with
      | .vptrNil => .ok (0, buf)
      | .vptrSome x => newMakeMarshaler x e buf startOffset
      | _ => .error .panicOOB
  | .int32 => .error .unserializable

/-- Sequential encoding of a slice of fixed-size elements
(`newmakeBasicSliceMarshaler` from `src/marshal.go`). -/
def newmakeBasicSliceMarshaler (xs : List Val) (ety : Ty) (buf : List Nat) (index : Nat) :
    Except Err (Nat × List Nat) :=
  match xs with
  | [] => .ok (index, buf)
  | x :: rest => do
      let (index', buf') ← newMakeMarshaler x ety buf index
      newmakeBasicSliceMarshaler rest ety buf' index'

/-- The variable-size element loop of `newmakeCompositeSliceMarshaler`
(`src/marshal.go`): marshal the tail at the rolling cursor, then backfill
the element's 4-byte offset. -/
def marshalVarLoop (xs : List Val) (ety : Ty) (buf : List Nat)
    (fixedIndex currentOffsetIndex startOffset : Nat) : Except Err (Nat × List Nat) :=
  match xs with
  | [] => .ok (currentOffsetIndex, buf)
  | x :: rest => do
      let (nextOffsetIndex, buf1) ← newMakeMarshaler x ety buf currentOffsetIndex
      let buf2 ← copyAt buf1 fixedIndex (fixedIndex + BytesPerLengthOffset)
        (leBytes 4 (wsub64 currentOffsetIndex startOffset))
      marshalVarLoop rest ety buf2 (fixedIndex + BytesPerLengthOffset)
        nextOffsetIndex startOffset

/-- The field loop of `newmakeStructMarshaler` (`src/marshal.go`). -/
def structMarshalLoop (vs : List Val) (fs : List SField) (buf : List Nat)
    (fixedIndex currentOffsetIndex startOffset : Nat) : Except Err (Nat × List Nat) :=
  match vs, fs with
  | v :: vrest, .mk fty _ :: frest =>
      if !isVariableSizeType fty then do
        let (fixedIndex', buf') ← newMakeMarshaler v fty buf fixedIndex
        structMarshalLoop vrest frest buf' fixedIndex' currentOffsetIndex startOffset
      else do
        let (nextOffsetIndex, buf1) ← newMakeMarshaler v fty buf currentOffsetIndex
        let buf2 ← copyAt buf1 fixedIndex (fixedIndex + BytesPerLengthOffset)
          (leBytes 4 (wsub64 currentOffsetIndex startOffset))
        structMarshalLoop vrest frest buf2 (fixedIndex + BytesPerLengthOffset)
          nextOffsetIndex startOffset
  | _, _ => .ok (currentOffsetIndex, buf)
end

/-- `newmakePtrMarshaler` from `src/marshal.go`: nil encodes to nothing and
returns cursor 0, otherwise the pointee is encoded at `startOffset`. -/
def newmakePtrMarshaler (v : Val) (ety : Ty) (buf : List Nat) (startOffset : Nat) :
    Except Err (Nat × List Nat) :=
  match v with
  | .vptrNil => .ok (0, buf)
  | .vptrSome x => newMakeMarshaler x ety buf startOffset
  | _ => .error .panicOOB

/-- `newmakeCompositeSliceMarshaler` from `src/marshal.go`, as a standalone
function over the element list: sequential when the composite type is
fixed-size, otherwise an offset header followed by the variable tails. -/
def newmakeCompositeSliceMarshaler (xs : List Val) (ty ety : Ty) (buf : List Nat)
    (startOffset : Nat) : Except Err (Nat × List Nat) :=
  if !isVariableSizeType ty then
    newmakeBasicSliceMarshaler xs ety buf startOffset
  else
    marshalVarLoop xs ety buf startOffset
      (startOffset + xs.length * BytesPerLengthOffset) startOffset

/-- `newmakeStructMarshaler` from `src/marshal.go`, as a standalone function
over field values and descriptors. -/
def newmakeStructMarshaler (vs : List Val) (fs : List SField) (buf : List Nat)
    (startOffset : Nat) : Except Err (Nat × List Nat) :=
  structMarshalLoop vs fs buf startOffset
    (startOffset + fixedFieldsSize (.vstruct vs) fs) startOffset

/-- The dispatcher's pointer case agrees with `newmakePtrMarshaler`. -/
theorem newMakeMarshaler_ptr (v : Val) (e : Ty) (buf : List Nat) (s : Nat) :
    newMakeMarshaler v (.ptr e) buf s = newmakePtrMarshaler v e buf s := by
  cases v <;> rfl

/-- The dispatcher's struct case agrees with `newmakeStructMarshaler`. -/
theorem newMakeMarshaler_strukt (vs : List Val) (fs : List SField)
    (buf : List Nat) (s : Nat) :
    newMakeMarshaler (.vstruct vs) (.strukt fs) buf s =
      newmakeStructMarshaler vs fs buf s := rfl

/-- `Marshal` from `src/marshal.go`: allocate a buffer of the value's total
size and run the dispatcher at offset 0. -/
def Marshal (v : Val) (ty : Ty) : Except Err (List Nat) :=
  let buf := List.replicate (determineSize v ty) 0
  match newMakeMarshaler v ty buf 0 with
  | .ok (_, buf') => .ok buf'
  | .error e => .error e

/-! ## The draft unmarshalers (`src/newunmarshal.go`)

The scalar readers (`unmarshalBool`, `unmarshalUintN`) live in a repository
file that is not under `src/`; they are modelled from the spec's decoding
rule "read the exact width and assign; fail with Truncated if fewer bytes
remain". -/

/-- Modelled from the spec: `unmarshalBool` (missing scalar-reader file). -/
def unmarshalBool (input : List Nat) (startOffset : Nat) : Except Err (Nat × Val) :=
  if startOffset + 1 ≤ input.length then
    .ok (startOffset + 1, .vbool (input.getD startOffset 0 != 0))
  else .error .truncated

/-- Modelled from the spec: `unmarshalUint8` (missing scalar-reader file). -/
def unmarshalUint8 (input : List Nat) (startOffset : Nat) : Except Err (Nat × Val) :=
  if startOffset + 1 ≤ input.length then
    .ok (startOffset + 1, .vuint (input.getD startOffset 0))
  else .error .truncated

/-- Modelled from the spec: `unmarshalUint16` (missing scalar-reader file). -/
def unmarshalUint16 (input : List Nat) (startOffset : Nat) : Except Err (Nat × Val) :=
  if startOffset + 2 ≤ input.length then
    .ok (startOffset + 2, .vuint (readLEAt input startOffset 2))
  else .error .truncated

/-- Modelled from the spec: `unmarshalUint32` (missing scalar-reader file). -/
def unmarshalUint32 (input : List Nat) (startOffset : Nat) : Except Err (Nat × Val) :=
  if startOffset + 4 ≤ input.length then
    .ok (startOffset + 4, .vuint (readLEAt input startOffset 4))
  else .error .truncated

/-- Modelled from the spec: `unmarshalUint64` (missing scalar-reader file). -/
def unmarshalUint64 (input : List Nat) (startOffset : Nat) : Except Err (Nat × Val) :=
  if startOffset + 8 ≤ input.length then
    .ok (startOffset + 8, .vuint (readLEAt input startOffset 8))
  else .error .truncated

/-- `newByteSliceUnmarshaler` from `src/newunmarshal.go` (first draft):
`offset := startOffset + len(input); val.SetBytes(input[startOffset:offset])`.
The slice expression panics when `offset > len(input)`. -/
def newByteSliceUnmarshaler (input : List Nat) (startOffset : Nat) :
    Except Err (Nat × Val) :=
  let offset := startOffset + input.length
  if offset ≤ input.length then
    .ok (offset, .vlist (((input.drop startOffset).take (offset - startOffset)).map .vuint))
  else .error .panicOOB

mutual
/-- `newMakeUnmarshaler` from `src/newunmarshal.go`, first draft
(lines 40-78): every case except byte slices and byte arrays is commented
out and falls to the "not deserializable" default. -/
def newMakeUnmarshaler1 (input : List Nat) (ty : Ty) (startOffset : Nat) :
    Except Err (Nat × Val) :=
  match ty with
  | .slice e =>
      if kindIsUint8 e then newByteSliceUnmarshaler input startOffset
      else .error .undeserializable
  | .array e n =>
      if kindIsUint8 e then newBasicArrayUnmarshaler1 input e n startOffset
      else .error .undeserializable
  | _ => .error .undeserializable
termination_by (sizeOf ty, 0)

/-- `newBasicArrayUnmarshaler` from the first draft: iterate the declared
length, decoding each element through the (crippled) dispatcher. -/
def newBasicArrayUnmarshaler1 (input : List Nat) (ety : Ty) (n startOffset : Nat) :
    Except Err (Nat × Val) :=
  match basicArrayLoop1 input ety n startOffset [] with
  | .ok (idx, vs) => .ok (idx, .vlist vs)
  | .error e => .error e
termination_by (sizeOf ety, n + 3)

/-- The element loop of the first draft's `newBasicArrayUnmarshaler`. -/
def basicArrayLoop1 (input : List Nat) (ety : Ty) (cnt index : Nat) (acc : List Val) :
    Except Err (Nat × List Val) :=
  match cnt with
  | 0 => .ok (index, acc)
  | c + 1 => do
      let (index', v) ← newMakeUnmarshaler1 input ety index
      basicArrayLoop1 input ety c index' (acc ++ [v])
termination_by (sizeOf ety, cnt + 2)
end

/-- `NewUnmarshal` from `src/newunmarshal.go` (first draft).  The Go
function guards that the destination is a non-nil pointer; the model takes
the pointee's descriptor directly and returns the populated value. -/
def NewUnmarshal (input : List Nat) (ty : Ty) : Except Err Val :=
  (newMakeUnmarshaler1 input ty 0).map (fun p => p.2)

/-- `newMakeUnmarshaler` from `src/newunmarshal.go`, second draft
(lines 214-253): scalar kinds only; `Int32` is explicitly routed to
`unmarshalUint32`. -/
def newMakeUnmarshaler2 (input : List Nat) (ty : Ty) (startOffset : Nat) :
    Except Err (Nat × Val) :=
  match ty with
  | .bool => unmarshalBool input startOffset
  | .uint8 => unmarshalUint8 input startOffset
  | .uint16 => unmarshalUint16 input startOffset
  | .uint32 => unmarshalUint32 input startOffset
  | .int32 => unmarshalUint32 input startOffset
  | .uint64 => unmarshalUint64 input startOffset
  | _ => .error .undeserializable

/-! ## Merkleization primitives

`pack`, `bitwiseMerkleize` and `mixInLength` live in a repository file that
is not under `src/`; they are modelled from the spec (§4.4).  SHA-256 is
the abstract 64-byte → 32-byte parameter `H`. -/

/-- The all-zero 32-byte chunk. -/
def zeroChunk : List Nat := List.replicate 32 0

/-- Split a byte string into consecutive 32-byte chunks. -/
def chunksOf32 (l : List Nat) : List (List Nat) :=
  match l with
  | [] => []
  | _ :: rest => l.take 32 :: chunksOf32 (rest.drop 31)
termination_by l.length
decreasing_by simp; omega

/-- Modelled from the spec: `pack` (missing merkleization file) —
concatenate, right-pad with zeros to a multiple of 32, and chunk. -/
def pack (items : List (List Nat)) : List (List Nat) :=
  let all := items.flatten
  chunksOf32 (all ++ List.replicate ((32 - all.length % 32) % 32) 0)

/-- One reduction level of the Merkle tree: hash adjacent pairs. -/
def hashLevel (H : List Nat → List Nat) : List (List Nat) → List (List Nat)
  | a :: b :: rest => H (a ++ b) :: hashLevel H rest
  | l => l

/-- `d` reduction levels. -/
def merkleRounds (H : List Nat → List Nat) : Nat → List (List Nat) → List (List Nat)
  | 0, l => l
  | d + 1, l => merkleRounds H d (hashLevel H l)

/-- Modelled from the spec: `bitwiseMerkleize` (missing merkleization
file) — `L = has_limit ? limit : #chunks` (0 treated as 1), depth
`⌈log₂ L⌉`, pad with zero chunks to `2^depth`, reduce pairwise. -/
def bitwiseMerkleize (H : List Nat → List Nat) (chunks : List (List Nat))
    (limit : Nat) (hasLimit : Bool) : List Nat :=
  let L := if hasLimit then limit else chunks.length
  let L := max L 1
  let d := Nat.clog 2 L
  let padded := chunks ++ List.replicate (2 ^ d - chunks.length) zeroChunk
  (merkleRounds H d padded).headD zeroChunk

/-- Modelled from the spec: `mixInLength` (missing merkleization file) —
one more hash of the root and the 32-byte length buffer. -/
def mixInLength (H : List Nat → List Nat) (root lengthBuf : List Nat) : List Nat :=
  H (root ++ lengthBuf)

/-- The 32-byte little-endian length buffer built by the hashers
(`binary.Write(buf, LittleEndian, uint64(len))` copied into 32 zero bytes). -/
def lenBuf32 (n : Nat) : List Nat :=
  leBytes 8 n ++ List.replicate 24 0

/-! ## The hash cache and the live hasher family
(`src/newmarshal.go`, second part)

The hash-cache implementation is in a repository file that is not under
`src/`; `newLookup` is modelled from the spec (§4.5): a mapping keyed by
(content fingerprint, descriptor, maxCapacity) storing the 32-byte root,
consulted only when the global toggle is on, computing and storing on a
miss, and not populated on failure.  The state is threaded explicitly. -/

/-- A hash-cache key: content fingerprint (the value itself), descriptor
and maxCapacity. -/
def HKey := Val × Ty × Nat

/-- Key equality. -/
def keyBeq : HKey → HKey → Bool
  | (v, t, c), (v', t', c') => Val.beq v v' && Ty.beq t t' && c == c'

/-- The hash-cache state: stored entries, most recent first. -/
def HashSt := List (HKey × List Nat)

/-- The empty hash cache. -/
def emptyHashSt : HashSt := []

/-- Cache consultation. -/
def findEntry (st : HashSt) (k : HKey) : Option (List Nat) :=
  (st.find? (fun e => keyBeq e.1 k)).map (fun e => e.2)

/-- Cache population. -/
def insertEntry (st : HashSt) (k : HKey) (r : List Nat) : HashSt :=
  (k, r) :: st

/-- `newMakeBasicTypeHasher` from `src/newmarshal.go`: marshal the value,
pack into one chunk, merkleize with limit 1 and no limit flag. -/
def newMakeBasicTypeHasher (H : List Nat → List Nat) (v : Val) (ty : Ty) :
    Except Err (List Nat) :=
  match newMakeMarshaler v ty (List.replicate (determineSize v ty) 0) 0 with
  | .ok (_, buf) => .ok (bitwiseMerkleize H (pack [buf]) 1 false)
  | .error e => .error e

/-- Whether a value's reflect kind is a basic scalar
(`isBasicType(val.Index(i).Kind())`). -/
def valKindBasic : Val → Bool
  | .vbool _ => true
  | .vuint _ => true
  | _ => false

mutual
/-- `newMakeHasher` from `src/newmarshal.go` (second part): kind dispatch
of the live merkleization engine.  `useC` is the global `useCache` toggle;
`st` the hash-cache state.  The `bitfield.Bitlist` special case is out of
scope of the spec (no bitlist in the model). -/
def newMakeHasherC (H : List Nat → List Nat) (useC : Bool) (st : HashSt)
    (v : Val) (ty : Ty) (maxCapacity : Nat) : Except Err (List Nat × HashSt) :=
  if isBasicType ty || isBasicTypeArray ty then
    (newMakeBasicTypeHasher H v ty).map (fun r => (r, st))
  else
    match ty with
    | .slice e =>
        match v with
        | .vlist xs =>
            if isBasicType e || isBasicTypeArray e then
              newBasicSliceHasherC H useC st xs e maxCapacity
            else
              newCompositeSliceHasherC H useC st xs e maxCapacity
        | _ => .error .panicOOB
    | .array e _ =>
        match v with
        | .vlist xs =>
            if isBasicTypeArray e then
              newBasicArrayHasherC H useC st xs e
            else
              newCompositeArrayHasherC H useC st xs e
        | _ => .error .panicOOB
    | .strukt fs =>
        match v with
        | .vstruct vs => do
            let (roots, st') ← fieldsHashLoop H useC st vs fs
            .ok (bitwiseMerkleize H roots fs.length true, st')
        | _ => .error .panicOOB
    | .ptr e =>
        match v with
        | .vptrNil => .ok (zeroChunk, st)
        | .vptrSome x => newMakeHasherC H useC st x e maxCapacity
        | _ => .error .panicOOB
    | _ => .error .unsupported
termination_by (sizeOf v, 0)

/-- The per-element site `if useCache { hashCache.newLookup(…) } else
{ newMakeHasher(…) }` appearing throughout the hashers; `newLookup` is
modelled from the spec (§4.5). -/
def newLookupSite (H : List Nat → List Nat) (useC : Bool) (st : HashSt)
    (v : Val) (ty : Ty) (maxCapacity : Nat) : Except Err (List Nat × HashSt) :=
  if useC then
    match findEntry st (v, ty, maxCapacity) with
    | some r => .ok (r, st)
    | none =>
        match newMakeHasherC H useC st v ty maxCapacity with
        | .ok (r, st') => .ok (r, insertEntry st' (v, ty, maxCapacity) r)
        | .error e => .error e
  else newMakeHasherC H useC st v ty maxCapacity
termination_by (sizeOf v, 1)

/-- `newBasicArrayHasher` from `src/newmarshal.go`: collect element roots
(lookup errors are not checked in the source loop), pack, and merkleize
with limit 1 and no limit flag. -/
def newBasicArrayHasherC (H : List Nat → List Nat) (useC : Bool) (st : HashSt)
    (xs : List Val) (ety : Ty) : Except Err (List Nat × HashSt) :=
  match arrayLeavesLoop H useC st xs ety with
  | (leaves, st') =>
      let chunks := pack leaves
      let chunks := if xs.length = 0 then [] else chunks
      .ok (bitwiseMerkleize H chunks 1 false, st')
termination_by (sizeOf xs, 3)

/-- `newCompositeArrayHasher` from `src/newmarshal.go`: element roots as
32-byte leaves, limit `⌈len·elemSize / 32⌉` (lookup errors are not checked
in the source loop). -/
def newCompositeArrayHasherC (H : List Nat → List Nat) (useC : Bool) (st : HashSt)
    (xs : List Val) (ety : Ty) : Except Err (List Nat × HashSt) :=
  let elemSize := if isBasicType ety then determineFixedSize (.vlist xs) ety else 32
  let limit := (xs.length * elemSize + 31) / 32
  match arrayLeavesLoop H useC st xs ety with
  | (roots, st') =>
      let chunks := pack roots
      let chunks := if xs.length = 0 then [] else chunks
      .ok (bitwiseMerkleize H chunks limit true, st')
termination_by (sizeOf xs, 3)

/-- The error-swallowing element loop shared by `newBasicArrayHasher` and
`newCompositeArrayHasher`: on failure the zero root is appended and the
cache is not populated. -/
def arrayLeavesLoop (H : List Nat → List Nat) (useC : Bool) (st : HashSt)
    (xs : List Val) (ety : Ty) : List (List Nat) × HashSt :=
  match xs with
  | [] => ([], st)
  | x :: rest =>
      match newLookupSite H useC st x ety 0 with
      | .ok (r, st1) =>
          match arrayLeavesLoop H useC st1 rest ety with
          | (ls, st2) => (r :: ls, st2)
      | .error _ =>
          match arrayLeavesLoop H useC st rest ety with
          | (ls, st2) => (zeroChunk :: ls, st2)
termination_by (sizeOf xs, 2)

/-- `newBasicSliceHasher` from `src/newmarshal.go`: basic elements are
marshaled into their own leaves, composite elements contribute their
roots; merkleize with limit `max 1 ⌈maxCapacity·elemSize / 32⌉` and mix in
the length. -/
def newBasicSliceHasherC (H : List Nat → List Nat) (useC : Bool) (st : HashSt)
    (xs : List Val) (ety : Ty) (maxCapacity : Nat) : Except Err (List Nat × HashSt) :=
  let elemSize := if isBasicType ety then determineFixedSize (.vlist xs) ety else 32
  let limit := (maxCapacity * elemSize + 31) / 32
  let limit := if limit = 0 then 1 else limit
  match basicSliceLeavesLoop H useC st xs ety with
  | .ok (leaves, st') =>
      .ok (mixInLength H (bitwiseMerkleize H (pack leaves) limit true)
        (lenBuf32 xs.length), st')
  | .error e => .error e
termination_by (sizeOf xs, 3)

/-- The element loop of `newBasicSliceHasher` (errors are propagated in
the composite branch of the source loop). -/
def basicSliceLeavesLoop (H : List Nat → List Nat) (useC : Bool) (st : HashSt)
    (xs : List Val) (ety : Ty) : Except Err (List (List Nat) × HashSt) :=
  match xs with
  | [] => .ok ([], st)
  | x :: rest =>
      if valKindBasic x then
        match newMakeMarshaler x ety (List.replicate (determineSize x ety) 0) 0 with
        | .ok (_, innerBuf) =>
            match basicSliceLeavesLoop H useC st rest ety with
            | .ok (ls, st') => .ok (innerBuf :: ls, st')
            | .error e => .error e
        | .error e => .error e
      else
        match newLookupSite H useC st x ety 0 with
        | .ok (r, st1) =>
            match basicSliceLeavesLoop H useC st1 rest ety with
            | .ok (ls, st2) => .ok (r :: ls, st2)
            | .error e => .error e
        | .error e => .error e
termination_by (sizeOf xs, 2)

/-- `newCompositeSliceHasher` from `src/newmarshal.go`: empty list with
zero capacity short-circuits; otherwise element roots, limit
`maxCapacity` (or the element count when 0), and a length mix-in. -/
def newCompositeSliceHasherC (H : List Nat → List Nat) (useC : Bool) (st : HashSt)
    (xs : List Val) (ety : Ty) (maxCapacity : Nat) : Except Err (List Nat × HashSt) :=
  if xs.length = 0 ∧ maxCapacity = 0 then
    .ok (mixInLength H (bitwiseMerkleize H [] 0 true) (List.replicate 32 0), st)
  else
    match compositeSliceRootsLoop H useC st xs ety with
    | .ok (roots, st') =>
        let objLen := if maxCapacity = 0 then xs.length else maxCapacity
        .ok (mixInLength H (bitwiseMerkleize H (pack roots) objLen true)
          (lenBuf32 xs.length), st')
    | .error e => .error e
termination_by (sizeOf xs, 3)

/-- The error-propagating element loop of `newCompositeSliceHasher`. -/
def compositeSliceRootsLoop (H : List Nat → List Nat) (useC : Bool) (st : HashSt)
    (xs : List Val) (ety : Ty) : Except Err (List (List Nat) × HashSt) :=
  match xs with
  | [] => .ok ([], st)
  | x :: rest =>
      match newLookupSite H useC st x ety 0 with
      | .ok (r, st1) =>
          match compositeSliceRootsLoop H useC st1 rest ety with
          | .ok (ls, st2) => .ok (r :: ls, st2)
          | .error e => .error e
      | .error e => .error e
termination_by (sizeOf xs, 2)

/-- The field loop of `makeFieldsHasher` from `src/newmarshal.go`: each
field is hashed with its descriptor type and `ssz-max` capacity; errors
are propagated. -/
def fieldsHashLoop (H : List Nat → List Nat) (useC : Bool) (st : HashSt)
    (vs : List Val) (fs : List SField) : Except Err (List (List Nat) × HashSt) :=
  match vs, fs with
  | v :: vrest, .mk fty fcap :: frest =>
      match newLookupSite H useC st v fty fcap with
      | .ok (r, st1) =>
          match fieldsHashLoop H useC st1 vrest frest with
          | .ok (rs, st2) => .ok (r :: rs, st2)
          | .error e => .error e
      | .error e => .error e
  | _, _ => .ok ([], st)
termination_by (sizeOf vs, 2)
end

/-- `newMakePtrHasher` from `src/newmarshal.go`: nil merkleizes to 32 zero
bytes; otherwise the pointee is hashed with the same capacity. -/
def newMakePtrHasher (H : List Nat → List Nat) (useC : Bool) (st : HashSt)
    (v : Val) (ety : Ty) (maxCapacity : Nat) : Except Err (List Nat × HashSt) :=
  match v with
  | .vptrNil => .ok (zeroChunk, st)
  | .vptrSome x => newMakeHasherC H useC st x ety maxCapacity
  | _ => .error .panicOOB

/-- The dispatcher's pointer case agrees with `newMakePtrHasher`. -/
theorem newMakeHasherC_ptr (H : List Nat → List Nat) (useC : Bool) (st : HashSt)
    (v : Val) (e : Ty) (cap : Nat) :
    newMakeHasherC H useC st v (.ptr e) cap = newMakePtrHasher H useC st v e cap := by
  cases v <;>
    simp [newMakeHasherC, newMakePtrHasher, isBasicType, isBasicTypeArray]

/-- `HashTreeRoot` from `src/newmarshal.go`: consult the hash cache when
the `useCache` toggle (set by `ToggleCache`) is on, else hash directly;
capacity 0. -/
def HashTreeRootC (H : List Nat → List Nat) (useC : Bool) (st : HashSt)
    (v : Val) (ty : Ty) : Except Err (List Nat × HashSt) :=
  if useC then newLookupSite H useC st v ty 0
  else newMakeHasherC H useC st v ty 0

/-- `HashTreeRootWithCapacity` from `src/newmarshal.go`: the value must be
of slice kind; then as `HashTreeRoot` with the given capacity. -/
def HashTreeRootWithCapacityC (H : List Nat → List Nat) (useC : Bool) (st : HashSt)
    (v : Val) (ty : Ty) (maxCapacity : Nat) : Except Err (List Nat × HashSt) :=
  match ty with
  | .slice e =>
      if useC then newLookupSite H useC st v (.slice e) maxCapacity
      else newMakeHasherC H useC st v (.slice e) maxCapacity
  | _ => .error .nonList

/-! ## The abandoned draft (`src/newhash_tree_root.go`, first part) -/

/-- `newMakeHasher` from `src/newhash_tree_root.go`: the entire dispatch
body is commented out; the function returns the zero root and no error. -/
def newMakeHasherStub (_val : Val) (_maxCapacity : Nat) : Except Err (List Nat) :=
  .ok zeroChunk

/-- `NewHashTreeRoot` from `src/newhash_tree_root.go`: reject untyped nil,
else defer to the stub dispatcher. -/
def NewHashTreeRoot (val : Option Val) : Except Err (List Nat) :=
  match val with
  | none => .error .untypedNil
  | some v => newMakeHasherStub v 0

/-! ## The codec cache (`src/ssz_utils_cache.go`)

`generateSSZUtilsForType` builds the three codec closures via
`makeMarshaler`/`makeUnmarshaler`/`makeHasher`, which live in repository
files not under `src/`; the generator is therefore an abstract parameter
`gen` that may itself read and extend the cache (recursive construction).
`U` stands for the `sszUtils` record of closures. -/

/-- A codec cache: Go's `map[reflect.Type]*sszUtils`. -/
def UtilsCache (U : Type) := List (Ty × U)

/-- Map lookup (`sszUtilsCache[typ]`; absent keys read as nil). -/
def lookupUtils {U : Type} (cache : UtilsCache U) (typ : Ty) : Option U :=
  ((cache.find? (fun e => Ty.beq e.1 typ))).map (fun e => e.2)

/-- Map deletion (`delete(sszUtilsCache, typ)`). -/
def eraseUtils {U : Type} (cache : UtilsCache U) (typ : Ty) : UtilsCache U :=
  cache.filter (fun e => !Ty.beq e.1 typ)

/-- Map insertion / in-place overwrite (`sszUtilsCache[typ] = u`). -/
def insertUtils {U : Type} (cache : UtilsCache U) (typ : Ty) (u : U) : UtilsCache U :=
  (typ, u) :: eraseUtils cache typ

/-- `cachedSSZUtilsNoAcquireLock` from `src/ssz_utils_cache.go`: return a
hit; otherwise install the dummy sentinel, run the generator, and either
remove the sentinel (failure) or overwrite it in place (success). -/
def cachedSSZUtilsNoAcquireLock {U : Type} (dummy : U)
    (gen : UtilsCache U → Ty → Except Err U × UtilsCache U)
    (cache : UtilsCache U) (typ : Ty) : Except Err U × UtilsCache U :=
  match lookupUtils cache typ with
  | some u => (.ok u, cache)
  | none =>
      let cache1 := insertUtils cache typ dummy
      match gen cache1 typ with
      | (.error e, c2) => (.error e, eraseUtils c2 typ)
      | (.ok u, c2) => (.ok u, insertUtils c2 typ u)

/-! ## Well-typedness and nil-freedom of values -/

mutual
/-- A value is representable at a descriptor: shapes line up and scalar
payloads fit their width. -/
def wellTyped : Ty → Val → Bool
  | .bool, .vbool _ => true
  | .uint8, .vuint n => n < 2 ^ 8
  | .uint16, .vuint n => n < 2 ^ 16
  | .uint32, .vuint n => n < 2 ^ 32
  | .uint64, .vuint n => n < 2 ^ 64
  | .slice e, .vlist xs => wellTypedList e xs
  | .array e n, .vlist xs => xs.length == n && wellTypedList e xs
  | .strukt fs, .vstruct vs => wellTypedFields fs vs
  | .ptr _, .vptrNil => true
  | .ptr e, .vptrSome x => wellTyped e x
  | _, _ => false

/-- Every element is representable at the element descriptor. -/
def wellTypedList : Ty → List Val → Bool
  | _, [] => true
  | e, x :: rest => wellTyped e x && wellTypedList e rest

/-- Every field value is representable at its field descriptor. -/
def wellTypedFields : List SField → List Val → Bool
  | [], [] => true
  | .mk t _ :: frest, v :: vrest => wellTyped t v && wellTypedFields frest vrest
  | _, _ => false
end

mutual
/-- No nil pointer occurs anywhere inside the value. -/
def noNilPtr : Val → Bool
  | .vbool _ => true
  | .vuint _ => true
  | .vlist xs => noNilPtrList xs
  | .vstruct vs => noNilPtrList vs
  | .vptrNil => false
  | .vptrSome x => noNilPtr x

/-- No nil pointer occurs anywhere inside the list. -/
def noNilPtrList : List Val → Bool
  | [] => true
  | x :: rest => noNilPtr x && noNilPtrList rest
end

/-! ## Buffer-write helper lemmas -/

theorem leBytes_length (w v : Nat) : (leBytes w v).length = w := by
  induction w generalizing v with
  | zero => rfl
  | succ k ih => simp [leBytes, ih]

theorem copyAt_eq (buf src : List Nat) (a b : Nat) (hab : a ≤ b) (hb : b ≤ buf.length) :
    copyAt buf a b src =
      .ok (buf.take a ++ src.take (min (b - a) src.length)
        ++ buf.drop (a + min (b - a) src.length)) := by
  simp [copyAt, hab, hb]

theorem copyAt_length {buf src out : List Nat} {a b : Nat}
    (h : copyAt buf a b src = .ok out) : out.length = buf.length := by
  unfold copyAt at h
  split at h
  · rename_i hcond
    simp only [Except.ok.injEq] at h
    subst h
    have hk : a + min (b - a) src.length ≤ buf.length := by
      have := Nat.min_le_left (b - a) src.length
      omega
    simp [List.length_take, List.length_drop, Nat.min_le_left]
    omega
  · exact absurd h (by simp)

theorem copyAt_getD_outside {buf src out : List Nat} {a b : Nat}
    (h : copyAt buf a b src = .ok out) (j : Nat)
    (hj : j < a ∨ a + min (b - a) src.length ≤ j) :
    out.getD j 0 = buf.getD j 0 := by
  unfold copyAt at h
  split at h
  · rename_i hcond
    simp only [Except.ok.injEq] at h
    subst h
    obtain ⟨hab, hblen⟩ := hcond
    set k := min (b - a) src.length with hk
    have hkba : k ≤ b - a := Nat.min_le_left _ _
    have hksrc : k ≤ src.length := Nat.min_le_right _ _
    have hak : a + k ≤ buf.length := by omega
    have hta : (buf.take a).length = a := by simp; omega
    have htk : (src.take k).length = k := by simp; omega
    rw [List.getD_eq_getElem?_getD, List.getD_eq_getElem?_getD]
    rcases hj with hj | hj
    · rw [List.getElem?_append_left (by rw [List.length_append, hta, htk]; omega)]
      rw [List.getElem?_append_left (by rw [hta]; omega)]
      rw [List.getElem?_take]
      simp [hj]
    · have hlen2 : (buf.take a ++ src.take k).length = a + k := by
        rw [List.length_append, hta, htk]
      rw [List.getElem?_append_right (by rw [hlen2]; omega)]
      rw [List.getElem?_drop, hlen2]
      have hidx : a + k + (j - (a + k)) = j := by omega
      rw [hidx]
  · exact absurd h (by simp)

theorem copyAt_getD_inside {buf src out : List Nat} {a b : Nat}
    (h : copyAt buf a b src = .ok out) (t : Nat)
    (ht : t < min (b - a) src.length) :
    out.getD (a + t) 0 = src.getD t 0 := by
  unfold copyAt at h
  split at h
  · rename_i hcond
    simp only [Except.ok.injEq] at h
    subst h
    obtain ⟨hab, hblen⟩ := hcond
    set k := min (b - a) src.length with hk
    have hksrc : k ≤ src.length := Nat.min_le_right _ _
    have hta : (buf.take a).length = a := by
      simp
      omega
    have htk : (src.take k).length = k := by simp; omega
    rw [List.getD_eq_getElem?_getD, List.getD_eq_getElem?_getD]
    rw [List.getElem?_append_left (by rw [List.length_append, hta, htk]; omega)]
    rw [List.getElem?_append_right (by rw [hta]; omega : (buf.take a).length ≤ a + t)]
    rw [hta]
    have hsub : a + t - a = t := by omega
    rw [hsub]
    rw [List.getElem?_take]
    simp [ht]
  · exact absurd h (by simp)

theorem writeByte_eq (buf : List Nat) (off v : Nat) (h : off < buf.length) :
    writeByte buf off v = .ok (buf.set off v) := by
  simp [writeByte, h]

theorem writeByte_length {buf out : List Nat} {off v : Nat}
    (h : writeByte buf off v = .ok out) : out.length = buf.length := by
  unfold writeByte at h
  split at h
  · simp only [Except.ok.injEq] at h
    subst h
    simp
  · exact absurd h (by simp)

theorem writeByte_getD_outside {buf out : List Nat} {off v : Nat}
    (h : writeByte buf off v = .ok out) (j : Nat) (hj : j ≠ off) :
    out.getD j 0 = buf.getD j 0 := by
  unfold writeByte at h
  split at h
  · simp only [Except.ok.injEq] at h
    subst h
    rw [List.getD_eq_getElem?_getD, List.getD_eq_getElem?_getD]
    rw [List.getElem?_set_ne (by omega)]
  · exact absurd h (by simp)

theorem exceptBind_ok {α β : Type} (a : α) (f : α → Except Err β) :
    (Except.ok a >>= f) = f a := rfl

/-! ## Size bookkeeping lemmas -/

theorem sizeListVar_eq (xs : List Val) (e : Ty) :
    sizeListVar xs e = 4 * xs.length + sizeListFixed xs e := by
  induction xs with
  | nil => rfl
  | cons x rest ih =>
      simp [sizeListVar, sizeListFixed, ih, BytesPerLengthOffset]
      omega

theorem isBasicType_not_var {e : Ty} (h : isBasicType e = true) :
    isVariableSizeType e = false := by
  cases e <;> simp_all [isBasicType, isVariableSizeType]

theorem isBasicTypeArray_not_var {e : Ty} (h : isBasicTypeArray e = true) :
    isVariableSizeType e = false := by
  cases e <;> simp_all [isBasicTypeArray, isVariableSizeType]
  rename_i e' _
  exact isBasicType_not_var h

theorem wellTypedList_mem {e : Ty} {xs : List Val} (h : wellTypedList e xs = true)
    {x : Val} (hx : x ∈ xs) : wellTyped e x = true := by
  induction xs with
  | nil => cases hx
  | cons y rest ih =>
      rw [wellTypedList] at h
      simp only [Bool.and_eq_true] at h
      rcases List.mem_cons.mp hx with rfl | hx'
      · exact h.1
      · exact ih h.2 hx'

theorem noNilPtrList_mem {xs : List Val} (h : noNilPtrList xs = true)
    {x : Val} (hx : x ∈ xs) : noNilPtr x = true := by
  induction xs with
  | nil => cases hx
  | cons y rest ih =>
      rw [noNilPtrList] at h
      simp only [Bool.and_eq_true] at h
      rcases List.mem_cons.mp hx with rfl | hx'
      · exact h.1
      · exact ih h.2 hx'

/-- The fixed parts (value-measured) of a struct's fields. -/
def fixedPartsSize : List Val → List SField → Nat
  | v :: vr, .mk t _ :: fr =>
      (if isVariableSizeType t then 4 else determineSize v t) + fixedPartsSize vr fr
  | _, _ => 0

/-- The variable tails of a struct's fields. -/
def varTails : List Val → List SField → Nat
  | v :: vr, .mk t _ :: fr =>
      (if isVariableSizeType t then determineSize v t else 0) + varTails vr fr
  | _, _ => 0

theorem sizeFields_split (vs : List Val) (fs : List SField) :
    sizeFields vs fs = fixedPartsSize vs fs + varTails vs fs := by
  induction vs generalizing fs with
  | nil => cases fs <;> rfl
  | cons v vr ih =>
      cases fs with
      | nil => rfl
      | cons f fr =>
          cases f with
          | mk t c =>
              simp only [sizeFields, fixedPartsSize, varTails, ih, BytesPerLengthOffset]
              split <;> omega

/-! ## The marshaler advances by exactly the serialized size and writes
only inside its frame -/

/-- The advance/region contract of `newMakeMarshaler` for one value: given
room, it succeeds, returns `startOffset + determineSize`, preserves the
buffer length, and leaves every byte outside `[s, s + size)` unchanged. -/
def MarshalsExact (v : Val) (ty : Ty) : Prop :=
  ∀ buf s, s + determineSize v ty ≤ buf.length →
    ∃ buf', newMakeMarshaler v ty buf s = .ok (s + determineSize v ty, buf') ∧
      buf'.length = buf.length ∧
      ∀ j, (j < s ∨ s + determineSize v ty ≤ j) → buf'.getD j 0 = buf.getD j 0

theorem basicLoop_exact (ety : Ty) (xs : List Val) :
    (∀ x ∈ xs, MarshalsExact x ety) →
    ∀ buf idx, idx + sizeListFixed xs ety ≤ buf.length →
    ∃ buf', newmakeBasicSliceMarshaler xs ety buf idx =
        .ok (idx + sizeListFixed xs ety, buf') ∧
      buf'.length = buf.length ∧
      ∀ j, (j < idx ∨ idx + sizeListFixed xs ety ≤ j) →
        buf'.getD j 0 = buf.getD j 0 := by
  induction xs with
  | nil =>
      intro _ buf idx _
      exact ⟨buf, by simp [newmakeBasicSliceMarshaler, sizeListFixed], rfl, fun j _ => rfl⟩
  | cons x rest ih =>
      intro hpw buf idx hroom
      have hx := hpw x (List.mem_cons_self x rest)
      have hsz : sizeListFixed (x :: rest) ety =
          determineSize x ety + sizeListFixed rest ety := rfl
      have hroom' : idx + (determineSize x ety + sizeListFixed rest ety) ≤ buf.length := by
        rw [← hsz]; exact hroom
      obtain ⟨buf1, hm, hlen1, hreg1⟩ := hx buf idx (by omega)
      obtain ⟨buf2, hloop, hlen2, hreg2⟩ :=
        ih (fun y hy => hpw y (List.mem_cons_of_mem x hy)) buf1
          (idx + determineSize x ety) (by rw [hlen1]; omega)
      refine ⟨buf2, ?_, by rw [hlen2, hlen1], ?_⟩
      · rw [newmakeBasicSliceMarshaler, hm]
        simp only [exceptBind_ok]
        rw [hloop, hsz]
        congr 2
        omega
      · intro j hj
        rw [hsz] at hj
        have h2 : buf2.getD j 0 = buf1.getD j 0 := hreg2 j (by omega)
        have h1 : buf1.getD j 0 = buf.getD j 0 := hreg1 j (by omega)
        rw [h2, h1]

theorem varLoop_exact (ety : Ty) (xs : List Val) :
    (∀ x ∈ xs, MarshalsExact x ety) →
    ∀ buf fix cur start,
    fix + 4 * xs.length ≤ cur →
    cur + sizeListFixed xs ety ≤ buf.length →
    ∃ buf', marshalVarLoop xs ety buf fix cur start =
        .ok (cur + sizeListFixed xs ety, buf') ∧
      buf'.length = buf.length ∧
      (∀ j, (j < fix ∨ (fix + 4 * xs.length ≤ j ∧ j < cur) ∨
          cur + sizeListFixed xs ety ≤ j) →
        buf'.getD j 0 = buf.getD j 0) ∧
      (∀ i, i < xs.length → ∀ t, t < 4 →
        buf'.getD (fix + 4 * i + t) 0 =
          (leBytes 4 (wsub64 (cur + sizeListFixed (xs.take i) ety) start)).getD t 0) := by
  induction xs with
  | nil =>
      intro _ buf fix cur start _ _
      refine ⟨buf, by simp [marshalVarLoop, sizeListFixed], rfl,
        fun j _ => rfl, fun i hi => absurd hi (by simp)⟩
  | cons x rest ih =>
      intro hpw buf fix cur start hheader hroom
      have hx := hpw x (List.mem_cons_self x rest)
      have hsz : sizeListFixed (x :: rest) ety =
          determineSize x ety + sizeListFixed rest ety := rfl
      have hroom' : cur + (determineSize x ety + sizeListFixed rest ety) ≤ buf.length := by
        rw [← hsz]; exact hroom
      have hlen' : (4 : Nat) * (x :: rest).length = 4 * rest.length + 4 := by
        simp; omega
      rw [hlen'] at hheader
      obtain ⟨buf1, hm, hlen1, hreg1⟩ := hx buf cur (by omega)
      set lb := leBytes 4 (wsub64 cur start) with hlb
      have hlbl : lb.length = 4 := leBytes_length 4 _
      have hc : copyAt buf1 fix (fix + 4) lb =
          .ok (buf1.take fix ++ lb.take (min (fix + 4 - fix) lb.length)
            ++ buf1.drop (fix + min (fix + 4 - fix) lb.length)) :=
        copyAt_eq buf1 lb fix (fix + 4) (by omega) (by rw [hlen1]; omega)
      set buf2 := buf1.take fix ++ lb.take (min (fix + 4 - fix) lb.length)
            ++ buf1.drop (fix + min (fix + 4 - fix) lb.length) with hbuf2
      have hmin : min (fix + 4 - fix) lb.length = 4 := by
        rw [hlbl]; omega
      have hlen2 : buf2.length = buf1.length := copyAt_length hc
      have hreg2 : ∀ j, (j < fix ∨ fix + 4 ≤ j) → buf2.getD j 0 = buf1.getD j 0 := by
        intro j hj
        exact copyAt_getD_outside hc j (by rw [hmin]; omega)
      have hcont2 : ∀ t, t < 4 → buf2.getD (fix + t) 0 = lb.getD t 0 := by
        intro t ht
        exact copyAt_getD_inside hc t (by rw [hmin]; omega)
      obtain ⟨buf3, hloop3, hlen3, hreg3, hhdr3⟩ :=
        ih (fun y hy => hpw y (List.mem_cons_of_mem x hy)) buf2 (fix + 4)
          (cur + determineSize x ety) start (by omega)
          (by rw [hlen2, hlen1]; omega)
      refine ⟨buf3, ?_, by rw [hlen3, hlen2, hlen1], ?_, ?_⟩
      · rw [marshalVarLoop, hm]
        simp only [exceptBind_ok, BytesPerLengthOffset]
        rw [← hlb, hc]
        simp only [exceptBind_ok]
        rw [hloop3, hsz]
        congr 2
        omega
      · intro j hj
        rw [hsz] at hj
        simp only [List.length_cons] at hj
        have h3 : buf3.getD j 0 = buf2.getD j 0 := hreg3 j (by omega)
        have h2 : buf2.getD j 0 = buf1.getD j 0 := hreg2 j (by omega)
        have h1 : buf1.getD j 0 = buf.getD j 0 := hreg1 j (by omega)
        rw [h3, h2, h1]
      · intro i hi t ht
        match i with
        | 0 =>
            have h3 : buf3.getD (fix + 4 * 0 + t) 0 = buf2.getD (fix + 4 * 0 + t) 0 :=
              hreg3 _ (by omega)
            have heq : fix + 4 * 0 + t = fix + t := by omega
            rw [h3, heq, hcont2 t ht]
            simp [sizeListFixed]
        | i' + 1 =>
            have hieq : fix + 4 * (i' + 1) + t = (fix + 4) + 4 * i' + t := by omega
            rw [hieq, hhdr3 i' (by simp at hi; omega) t ht]
            have htake : (x :: rest).take (i' + 1) = x :: rest.take i' := rfl
            rw [htake]
            have hszt : sizeListFixed (x :: rest.take i') ety =
                determineSize x ety + sizeListFixed (rest.take i') ety := rfl
            rw [hszt]
            have hassoc : cur + (determineSize x ety + sizeListFixed (rest.take i') ety)
                = cur + determineSize x ety + sizeListFixed (rest.take i') ety := by omega
            rw [hassoc]

theorem kindIsUint8_eq {e : Ty} : kindIsUint8 e = true ↔ e = .uint8 := by
  cases e <;> simp [kindIsUint8]

/-- Pointwise advance/region contracts for a struct's fields. -/
def FieldsExact : List Val → List SField → Prop
  | v :: vr, .mk t _ :: fr => MarshalsExact v t ∧ FieldsExact vr fr
  | _, _ => True

theorem structLoop_exact : ∀ (vs : List Val) (fs : List SField),
    FieldsExact vs fs →
    ∀ buf fix cur start,
    fix + fixedPartsSize vs fs ≤ cur →
    cur + varTails vs fs ≤ buf.length →
    ∃ buf', structMarshalLoop vs fs buf fix cur start =
        .ok (cur + varTails vs fs, buf') ∧
      buf'.length = buf.length ∧
      ∀ j, (j < fix ∨ (fix + fixedPartsSize vs fs ≤ j ∧ j < cur) ∨
          cur + varTails vs fs ≤ j) →
        buf'.getD j 0 = buf.getD j 0 := by
  intro vs
  induction vs with
  | nil =>
      intro fs _ buf fix cur start _ _
      refine ⟨buf, ?_, rfl, fun j _ => rfl⟩
      cases fs <;> simp [structMarshalLoop, varTails]
  | cons v vr ih =>
      intro fs hpw buf fix cur start hheader hroom
      cases fs with
      | nil =>
          refine ⟨buf, by simp [structMarshalLoop, varTails], rfl, fun j _ => rfl⟩
      | cons f fr =>
          cases f with
          | mk t c =>
              obtain ⟨hx, hpwr⟩ := hpw
              by_cases hvar : isVariableSizeType t = true
              · -- variable-size field: tail at cur, offset backfilled at fix
                have hfp : fixedPartsSize (v :: vr) (.mk t c :: fr) =
                    4 + fixedPartsSize vr fr := by simp [fixedPartsSize, hvar]
                have hvt : varTails (v :: vr) (.mk t c :: fr) =
                    determineSize v t + varTails vr fr := by simp [varTails, hvar]
                rw [hfp] at hheader
                rw [hvt] at hroom ⊢
                obtain ⟨buf1, hm, hlen1, hreg1⟩ := hx buf cur (by omega)
                set lb := leBytes 4 (wsub64 cur start) with hlb
                have hlbl : lb.length = 4 := leBytes_length 4 _
                have hc : copyAt buf1 fix (fix + 4) lb =
                    .ok (buf1.take fix ++ lb.take (min (fix + 4 - fix) lb.length)
                      ++ buf1.drop (fix + min (fix + 4 - fix) lb.length)) :=
                  copyAt_eq buf1 lb fix (fix + 4) (by omega) (by rw [hlen1]; omega)
                set buf2 := buf1.take fix ++ lb.take (min (fix + 4 - fix) lb.length)
                      ++ buf1.drop (fix + min (fix + 4 - fix) lb.length) with hbuf2
                have hmin : min (fix + 4 - fix) lb.length = 4 := by rw [hlbl]; omega
                have hlen2 : buf2.length = buf1.length := copyAt_length hc
                have hreg2 : ∀ j, (j < fix ∨ fix + 4 ≤ j) →
                    buf2.getD j 0 = buf1.getD j 0 := by
                  intro j hj
                  exact copyAt_getD_outside hc j (by rw [hmin]; omega)
                obtain ⟨buf3, hloop3, hlen3, hreg3⟩ :=
                  ih fr hpwr buf2 (fix + 4) (cur + determineSize v t) start
                    (by omega) (by rw [hlen2, hlen1]; omega)
                refine ⟨buf3, ?_, by rw [hlen3, hlen2, hlen1], ?_⟩
                · rw [structMarshalLoop]
                  simp only [hvar, Bool.not_true, Bool.false_eq_true, if_false]
                  rw [hm]
                  simp only [exceptBind_ok, BytesPerLengthOffset]
                  rw [← hlb, hc]
                  simp only [exceptBind_ok]
                  rw [hloop3]
                  congr 2
                  omega
                · intro j hj
                  have h3 : buf3.getD j 0 = buf2.getD j 0 := hreg3 j (by omega)
                  have h2 : buf2.getD j 0 = buf1.getD j 0 := hreg2 j (by omega)
                  have h1 : buf1.getD j 0 = buf.getD j 0 := hreg1 j (by omega)
                  rw [h3, h2, h1]
              · -- fixed-size field: written at the rolling fixed cursor
                have hvarf : isVariableSizeType t = false := by
                  revert hvar; cases isVariableSizeType t <;> simp
                have hfp : fixedPartsSize (v :: vr) (.mk t c :: fr) =
                    determineSize v t + fixedPartsSize vr fr := by
                  simp [fixedPartsSize, hvarf]
                have hvt : varTails (v :: vr) (.mk t c :: fr) =
                    varTails vr fr := by simp [varTails, hvarf]
                rw [hfp] at hheader
                rw [hvt] at hroom ⊢
                obtain ⟨buf1, hm, hlen1, hreg1⟩ := hx buf fix (by omega)
                obtain ⟨buf2, hloop2, hlen2, hreg2⟩ :=
                  ih fr hpwr buf1 (fix + determineSize v t) cur start
                    (by omega) (by rw [hlen1]; omega)
                refine ⟨buf2, ?_, by rw [hlen2, hlen1], ?_⟩
                · rw [structMarshalLoop]
                  simp only [hvarf, Bool.not_false, if_true]
                  rw [hm]
                  simp only [exceptBind_ok]
                  rw [hloop2]
                · intro j hj
                  have h2 : buf2.getD j 0 = buf1.getD j 0 := hreg2 j (by omega)
                  have h1 : buf1.getD j 0 = buf.getD j 0 := hreg1 j (by omega)
                  rw [h2, h1]

theorem not_basic_of_var {e : Ty} (h : isVariableSizeType e = true) :
    isBasicType e = false := by
  cases hb : isBasicType e
  · rfl
  · rw [isBasicType_not_var hb] at h; cases h

theorem not_basicArray_of_var {e : Ty} (h : isVariableSizeType e = true) :
    isBasicTypeArray e = false := by
  cases hb : isBasicTypeArray e
  · rfl
  · rw [isBasicTypeArray_not_var hb] at h; cases h

theorem sizeOf_val_pos (v : Val) : 1 ≤ sizeOf v := by
  cases v <;> simp_arith

theorem sizeOf_mem_of_list {x : Val} {xs : List Val} (hx : x ∈ xs) :
    sizeOf x < sizeOf (Val.vlist xs) := by
  have h1 := List.sizeOf_lt_of_mem hx
  have h2 : sizeOf (Val.vlist xs) = 1 + sizeOf xs := by simp
  omega

theorem sizeOf_mem_of_struct {x : Val} {xs : List Val} (hx : x ∈ xs) :
    sizeOf x < sizeOf (Val.vstruct xs) := by
  have h1 := List.sizeOf_lt_of_mem hx
  have h2 : sizeOf (Val.vstruct xs) = 1 + sizeOf xs := by simp
  omega

/-- The value-measured total size of a well-typed nil-free fixed-size value
agrees with the type-measured `determineFixedSize`. -/
theorem fixed_size_agree_aux : ∀ (n : Nat) (v : Val) (ty : Ty) (w : Val),
    sizeOf v ≤ n →
    wellTyped ty v = true → noNilPtr v = true → isVariableSizeType ty = false →
    determineSize v ty = determineFixedSize w ty := by
  intro n
  induction n with
  | zero =>
      intro v ty w hsz
      exact absurd hsz (by have := sizeOf_val_pos v; omega)
  | succ m ih =>
      intro v ty w hszn hwt hnp hfix
      cases ty with
      | bool => cases v <;> simp_all [wellTyped, determineSize, determineFixedSize]
      | uint8 => cases v <;> simp_all [wellTyped, determineSize, determineFixedSize]
      | uint16 => cases v <;> simp_all [wellTyped, determineSize, determineFixedSize]
      | uint32 => cases v <;> simp_all [wellTyped, determineSize, determineFixedSize]
      | uint64 => cases v <;> simp_all [wellTyped, determineSize, determineFixedSize]
      | int32 => cases v <;> simp_all [wellTyped]
      | slice e => simp [isVariableSizeType] at hfix
      | array e nn =>
          cases v <;> simp only [wellTyped] at hwt <;> try simp at hwt
          rename_i xs
          have hfe : isVariableSizeType e = false := by
            rw [isVariableSizeType] at hfix; exact hfix
          obtain ⟨hlen, hlist⟩ := hwt
          have hnpl : noNilPtrList xs = true := hnp
          have hsum : ∀ ys : List Val, (∀ x ∈ ys, sizeOf x ≤ m) →
              wellTypedList e ys = true → noNilPtrList ys = true →
              sizeListFixed ys e = ys.length * determineFixedSize w e := by
            intro ys
            induction ys with
            | nil => intro _ _ _; simp [sizeListFixed]
            | cons y yr ihy =>
                intro hszs hwl hnl
                rw [wellTypedList] at hwl
                rw [noNilPtrList] at hnl
                simp only [Bool.and_eq_true] at hwl hnl
                rw [sizeListFixed]
                rw [ih y e w (hszs y (List.mem_cons_self y yr)) hwl.1 hnl.1 hfe]
                rw [ihy (fun x hx => hszs x (List.mem_cons_of_mem y hx)) hwl.2 hnl.2]
                rw [List.length_cons, Nat.succ_mul]
                omega
          have hszs : ∀ x ∈ xs, sizeOf x ≤ m := by
            intro x hx
            have := sizeOf_mem_of_list hx
            omega
          by_cases h8 : kindIsUint8 e = true
          · have he : e = Ty.uint8 := kindIsUint8_eq.mp h8
            subst he
            simp [determineSize, determineFixedSize, kindIsUint8, hlen]
          · have h8f : kindIsUint8 e = false := by
              revert h8; cases kindIsUint8 e <;> simp
            simp only [determineSize, h8f, Bool.false_eq_true, if_false, hfe]
            rw [hsum xs hszs hlist hnpl, hlen]
            rfl
      | strukt fls =>
          cases v <;> simp only [wellTyped] at hwt <;> try simp at hwt
          rename_i vs
          have hnpl : noNilPtrList vs = true := hnp
          have hvf : isVariableFields fls = false := by
            rw [isVariableSizeType] at hfix; exact hfix
          have hrec : ∀ (gs : List SField) (us : List Val),
              (∀ x ∈ us, sizeOf x ≤ m) → wellTypedFields gs us = true →
              noNilPtrList us = true → isVariableFields gs = false →
              sizeFields us gs = fixedFieldsSize w gs := by
            intro gs
            induction gs with
            | nil =>
                intro us hszs hwf _ _
                cases us with
                | nil => rfl
                | cons u ur => simp [wellTypedFields] at hwf
            | cons g gr ihg =>
                intro us hszs hwf hnl hvf'
                cases us with
                | nil => cases g with | mk t c => simp [wellTypedFields] at hwf
                | cons u ur =>
                    cases g with
                    | mk t c =>
                        rw [wellTypedFields] at hwf
                        rw [noNilPtrList] at hnl
                        rw [isVariableFields] at hvf'
                        simp only [Bool.and_eq_true] at hwf hnl
                        simp only [Bool.or_eq_false_iff] at hvf'
                        rw [sizeFields, fixedFieldsSize]
                        rw [hvf'.1]
                        simp only [Bool.false_eq_true, if_false]
                        rw [ih u t w (hszs u (List.mem_cons_self u ur)) hwf.1 hnl.1 hvf'.1]
                        rw [ihg ur (fun x hx => hszs x (List.mem_cons_of_mem u hx))
                          hwf.2 hnl.2 hvf'.2]
          have hszs : ∀ x ∈ vs, sizeOf x ≤ m := by
            intro x hx
            have := sizeOf_mem_of_struct hx
            omega
          exact hrec fls vs hszs hwt hnpl hvf
      | ptr e =>
          have hfe : isVariableSizeType e = false := by
            rw [isVariableSizeType] at hfix; exact hfix
          cases v <;> simp only [wellTyped] at hwt <;> try simp at hwt
          · simp [noNilPtr] at hnp
          · rename_i x
            have hx : sizeOf x ≤ m := by
              have : sizeOf (Val.vptrSome x) = 1 + sizeOf x := by simp
              omega
            rw [determineSize, determineFixedSize]
            exact ih x e w hx hwt hnp hfe

theorem fixed_size_agree (v : Val) (ty : Ty) (w : Val)
    (hwt : wellTyped ty v = true) (hnp : noNilPtr v = true)
    (hfix : isVariableSizeType ty = false) :
    determineSize v ty = determineFixedSize w ty :=
  fixed_size_agree_aux (sizeOf v) v ty w le_rfl hwt hnp hfix

/-- For well-typed nil-free field values, the type-measured fixed length of
a struct equals the value-measured one. -/
theorem fixedFields_agree (w : Val) : ∀ (fs : List SField) (vs : List Val),
    wellTypedFields fs vs = true → noNilPtrList vs = true →
    fixedFieldsSize w fs = fixedPartsSize vs fs := by
  intro fs
  induction fs with
  | nil =>
      intro vs hwf _
      cases vs with
      | nil => rfl
      | cons u ur => simp [wellTypedFields] at hwf
  | cons g gr ihg =>
      intro vs hwf hnl
      cases vs with
      | nil => cases g with | mk t c => simp [wellTypedFields] at hwf
      | cons u ur =>
          cases g with
          | mk t c =>
              rw [wellTypedFields] at hwf
              rw [noNilPtrList] at hnl
              simp only [Bool.and_eq_true] at hwf hnl
              rw [fixedFieldsSize, fixedPartsSize]
              rw [ihg ur hwf.2 hnl.2]
              by_cases hv : isVariableSizeType t = true
              · simp [hv, BytesPerLengthOffset]
              · have hvf : isVariableSizeType t = false := by
                  revert hv; cases isVariableSizeType t <;> simp
                simp only [hvf, Bool.false_eq_true, if_false]
                rw [fixed_size_agree u t w hwf.1 hnl.1 hvf]

/-- Main advance/region theorem: on a well-typed nil-free value the
marshaler always succeeds within a large-enough buffer, returns
`startOffset + determineSize`, and writes only inside its own frame. -/
theorem marshal_exact_aux : ∀ (n : Nat) (v : Val) (ty : Ty), sizeOf v ≤ n →
    wellTyped ty v = true → noNilPtr v = true → MarshalsExact v ty := by
  intro n
  induction n with
  | zero =>
      intro v ty hsz _ _
      exact absurd hsz (by have := sizeOf_val_pos v; omega)
  | succ m ih =>
      intro v ty hszn hwt hnp
      cases ty with
      | bool =>
          cases v <;> simp only [wellTyped] at hwt <;> try simp at hwt
          rename_i b
          intro buf s hroom
          have hds : determineSize (Val.vbool b) Ty.bool = 1 := rfl
          rw [hds] at hroom ⊢
          refine ⟨buf.set s (if b then 1 else 0), ?_, by simp, ?_⟩
          · show newMarshalBool (Val.vbool b) buf s = _
            rw [newMarshalBool, writeByte_eq buf s _ (by omega)]
            simp [exceptBind_ok, boolVal]
          · intro j hj
            rw [List.getD_eq_getElem?_getD, List.getD_eq_getElem?_getD,
              List.getElem?_set_ne (by omega)]
      | uint8 =>
          cases v <;> simp only [wellTyped] at hwt <;> try simp at hwt
          rename_i nn
          intro buf s hroom
          have hds : determineSize (Val.vuint nn) Ty.uint8 = 1 := rfl
          rw [hds] at hroom ⊢
          refine ⟨buf.set s (nn % 256), ?_, by simp, ?_⟩
          · show newMarshalUint8 (Val.vuint nn) buf s = _
            rw [newMarshalUint8, writeByte_eq buf s _ (by omega)]
            simp [exceptBind_ok, uintVal]
          · intro j hj
            rw [List.getD_eq_getElem?_getD, List.getD_eq_getElem?_getD,
              List.getElem?_set_ne (by omega)]
      | uint16 =>
          cases v <;> simp only [wellTyped] at hwt <;> try simp at hwt
          rename_i nn
          intro buf s hroom
          have hds : determineSize (Val.vuint nn) Ty.uint16 = 2 := rfl
          rw [hds] at hroom ⊢
          have hlb : (leBytes 2 (uintVal (Val.vuint nn))).length = 2 := leBytes_length _ _
          have hc := copyAt_eq buf (leBytes 2 (uintVal (Val.vuint nn))) s (s + 2)
            (by omega) (by omega)
          refine ⟨_, ?_, copyAt_length hc, ?_⟩
          · show newMarshalUint16 (Val.vuint nn) buf s = _
            rw [newMarshalUint16, hc]
            simp [exceptBind_ok]
          · intro j hj
            exact copyAt_getD_outside hc j (by rw [hlb]; omega)
      | uint32 =>
          cases v <;> simp only [wellTyped] at hwt <;> try simp at hwt
          rename_i nn
          intro buf s hroom
          have hds : determineSize (Val.vuint nn) Ty.uint32 = 4 := rfl
          rw [hds] at hroom ⊢
          have hlb : (leBytes 4 (uintVal (Val.vuint nn))).length = 4 := leBytes_length _ _
          have hc := copyAt_eq buf (leBytes 4 (uintVal (Val.vuint nn))) s (s + 4)
            (by omega) (by omega)
          refine ⟨_, ?_, copyAt_length hc, ?_⟩
          · show newMarshalUint32 (Val.vuint nn) buf s = _
            rw [newMarshalUint32, hc]
            simp [exceptBind_ok]
          · intro j hj
            exact copyAt_getD_outside hc j (by rw [hlb]; omega)
      | uint64 =>
          cases v <;> simp only [wellTyped] at hwt <;> try simp at hwt
          rename_i nn
          intro buf s hroom
          have hds : determineSize (Val.vuint nn) Ty.uint64 = 8 := rfl
          rw [hds] at hroom ⊢
          have hlb : (leBytes 8 (uintVal (Val.vuint nn))).length = 8 := leBytes_length _ _
          have hc := copyAt_eq buf (leBytes 8 (uintVal (Val.vuint nn))) s (s + 8)
            (by omega) (by omega)
          refine ⟨_, ?_, copyAt_length hc, ?_⟩
          · show newMarshalUint64 (Val.vuint nn) buf s = _
            rw [newMarshalUint64, hc]
            simp [exceptBind_ok]
          · intro j hj
            exact copyAt_getD_outside hc j (by rw [hlb]; omega)
      | int32 =>
          cases v <;> simp only [wellTyped] at hwt <;> try simp at hwt
      | slice e =>
          cases v <;> simp only [wellTyped] at hwt <;> try simp at hwt
          rename_i xs
          have hnpl : noNilPtrList xs = true := hnp
          have hpw : ∀ x ∈ xs, MarshalsExact x e := by
            intro x hx
            exact ih x e (by have := sizeOf_mem_of_list hx; omega)
              (wellTypedList_mem hwt hx) (noNilPtrList_mem hnpl hx)
          by_cases h8 : kindIsUint8 e = true
          · obtain rfl := kindIsUint8_eq.mp h8
            intro buf s hroom
            have hds : determineSize (Val.vlist xs) (Ty.slice Ty.uint8) = xs.length := rfl
            rw [hds] at hroom ⊢
            have hbl : (bytesOfVals (listOf (Val.vlist xs))).length = xs.length := by
              simp [bytesOfVals, listOf]
            have hc := copyAt_eq buf (bytesOfVals (listOf (Val.vlist xs))) s
              (s + (bytesOfVals (listOf (Val.vlist xs))).length) (by omega)
              (by rw [hbl]; omega)
            refine ⟨_, ?_, copyAt_length hc, ?_⟩
            · show newMarshalByteSlice (Val.vlist xs) buf s = _
              simp only [newMarshalByteSlice]
              rw [hc]
              simp [exceptBind_ok, hbl]
            · intro j hj
              exact copyAt_getD_outside hc j (by rw [hbl]; omega)
          · have h8f : kindIsUint8 e = false := by
              revert h8; cases kindIsUint8 e <;> simp
            by_cases hv : isVariableSizeType e = true
            · intro buf s hroom
              have hds : determineSize (Val.vlist xs) (Ty.slice e) = sizeListVar xs e := by
                simp [determineSize, h8f, hv]
              rw [hds, sizeListVar_eq] at hroom
              obtain ⟨buf', hloop, hlen, hreg, _⟩ :=
                varLoop_exact e xs hpw buf s (s + xs.length * 4) s (by omega) (by omega)
              refine ⟨buf', ?_, hlen, ?_⟩
              · have hshow : newMakeMarshaler (Val.vlist xs) (Ty.slice e) buf s =
                    marshalVarLoop xs e buf s (s + xs.length * BytesPerLengthOffset) s := by
                  simp [newMakeMarshaler, h8f, hv, not_basic_of_var hv,
                    not_basicArray_of_var hv, isVariableSizeType]
                rw [hshow]
                simp only [BytesPerLengthOffset]
                rw [hloop, hds, sizeListVar_eq]
                congr 2
                omega
              · intro j hj
                rw [hds, sizeListVar_eq] at hj
                exact hreg j (by omega)
            · have hvf : isVariableSizeType e = false := by
                revert hv; cases isVariableSizeType e <;> simp
              intro buf s hroom
              have hds : determineSize (Val.vlist xs) (Ty.slice e) = sizeListFixed xs e := by
                simp [determineSize, h8f, hvf]
              rw [hds] at hroom ⊢
              obtain ⟨buf', hloop, hlen, hreg⟩ := basicLoop_exact e xs hpw buf s (by omega)
              refine ⟨buf', ?_, hlen, hreg⟩
              have hshow : newMakeMarshaler (Val.vlist xs) (Ty.slice e) buf s =
                  newmakeBasicSliceMarshaler xs e buf s := by
                simp [newMakeMarshaler, h8f, hvf]
              rw [hshow, hloop]
      | array e nn =>
          cases v <;> simp only [wellTyped] at hwt <;> try simp at hwt
          rename_i xs
          obtain ⟨hlenxs, hwl⟩ := hwt
          have hnpl : noNilPtrList xs = true := hnp
          have hpw : ∀ x ∈ xs, MarshalsExact x e := by
            intro x hx
            exact ih x e (by have := sizeOf_mem_of_list hx; omega)
              (wellTypedList_mem hwl hx) (noNilPtrList_mem hnpl hx)
          by_cases h8 : kindIsUint8 e = true
          · obtain rfl := kindIsUint8_eq.mp h8
            intro buf s hroom
            have hds : determineSize (Val.vlist xs) (Ty.array Ty.uint8 nn) = xs.length := rfl
            rw [hds] at hroom ⊢
            have hbl : ((listOf (Val.vlist xs)).map (fun x => uintVal x % 256)).length
                = xs.length := by simp [listOf]
            have hc := copyAt_eq buf ((listOf (Val.vlist xs)).map (fun x => uintVal x % 256))
              s (s + ((listOf (Val.vlist xs)).map (fun x => uintVal x % 256)).length)
              (by omega) (by rw [hbl]; omega)
            refine ⟨_, ?_, copyAt_length hc, ?_⟩
            · show newMarshalByteArray (Val.vlist xs) buf s = _
              simp only [newMarshalByteArray]
              rw [hc]
              simp [exceptBind_ok, hbl]
            · intro j hj
              exact copyAt_getD_outside hc j (by rw [hbl]; omega)
          · have h8f : kindIsUint8 e = false := by
              revert h8; cases kindIsUint8 e <;> simp
            by_cases hv : isVariableSizeType e = true
            · intro buf s hroom
              have hds : determineSize (Val.vlist xs) (Ty.array e nn) = sizeListVar xs e := by
                simp [determineSize, h8f, hv]
              rw [hds, sizeListVar_eq] at hroom
              obtain ⟨buf', hloop, hlen, hreg, _⟩ :=
                varLoop_exact e xs hpw buf s (s + xs.length * 4) s (by omega) (by omega)
              refine ⟨buf', ?_, hlen, ?_⟩
              · have hshow : newMakeMarshaler (Val.vlist xs) (Ty.array e nn) buf s =
                    marshalVarLoop xs e buf s (s + xs.length * BytesPerLengthOffset) s := by
                  simp [newMakeMarshaler, h8f, hv, isVariableSizeType]
                rw [hshow]
                simp only [BytesPerLengthOffset]
                rw [hloop, hds, sizeListVar_eq]
                congr 2
                omega
              · intro j hj
                rw [hds, sizeListVar_eq] at hj
                exact hreg j (by omega)
            · have hvf : isVariableSizeType e = false := by
                revert hv; cases isVariableSizeType e <;> simp
              intro buf s hroom
              have hds : determineSize (Val.vlist xs) (Ty.array e nn) = sizeListFixed xs e := by
                simp [determineSize, h8f, hvf]
              rw [hds] at hroom ⊢
              obtain ⟨buf', hloop, hlen, hreg⟩ := basicLoop_exact e xs hpw buf s (by omega)
              refine ⟨buf', ?_, hlen, hreg⟩
              have hshow : newMakeMarshaler (Val.vlist xs) (Ty.array e nn) buf s =
                  newmakeBasicSliceMarshaler xs e buf s := by
                simp [newMakeMarshaler, h8f, hvf, isVariableSizeType]
              rw [hshow, hloop]
      | strukt fls =>
          cases v <;> simp only [wellTyped] at hwt <;> try simp at hwt
          rename_i vs
          have hnpl : noNilPtrList vs = true := hnp
          have hfe : FieldsExact vs fls := by
            have hgen : ∀ (gs : List SField) (us : List Val),
                (∀ x ∈ us, sizeOf x ≤ m) → wellTypedFields gs us = true →
                noNilPtrList us = true → FieldsExact us gs := by
              intro gs
              induction gs with
              | nil =>
                  intro us _ _ _
                  cases us <;> trivial
              | cons g gr ihg =>
                  intro us hszs hwf hnl
                  cases us with
                  | nil => trivial
                  | cons u ur =>
                      cases g with
                      | mk t c =>
                          rw [wellTypedFields] at hwf
                          rw [noNilPtrList] at hnl
                          simp only [Bool.and_eq_true] at hwf hnl
                          exact ⟨ih u t (hszs u (List.mem_cons_self u ur)) hwf.1 hnl.1,
                            ihg ur (fun x hx => hszs x (List.mem_cons_of_mem u hx))
                              hwf.2 hnl.2⟩
            exact hgen fls vs
              (fun x hx => by have := sizeOf_mem_of_struct hx; omega) hwt hnpl
          intro buf s hroom
          have hds : determineSize (Val.vstruct vs) (Ty.strukt fls) = sizeFields vs fls := rfl
          rw [hds, sizeFields_split] at hroom
          obtain ⟨buf', hloop, hlen, hreg⟩ :=
            structLoop_exact vs fls hfe buf s (s + fixedPartsSize vs fls) s
              (by omega) (by omega)
          refine ⟨buf', ?_, hlen, ?_⟩
          · have hagree : fixedFieldsSize (Val.vstruct vs) fls = fixedPartsSize vs fls :=
              fixedFields_agree _ fls vs hwt hnpl
            have hshow : newMakeMarshaler (Val.vstruct vs) (Ty.strukt fls) buf s =
                structMarshalLoop vs fls buf s
                  (s + fixedFieldsSize (Val.vstruct vs) fls) s := rfl
            rw [hshow, hagree, hloop, hds, sizeFields_split]
            congr 2
            omega
          · intro j hj
            rw [hds, sizeFields_split] at hj
            exact hreg j (by omega)
      | ptr e =>
          cases v <;> simp only [wellTyped] at hwt <;> try simp at hwt
          · simp [noNilPtr] at hnp
          · rename_i x
            have hx : sizeOf x ≤ m := by
              have : sizeOf (Val.vptrSome x) = 1 + sizeOf x := by simp
              omega
            have hme : MarshalsExact x e := ih x e hx hwt hnp
            intro buf s hroom
            have hds : determineSize (Val.vptrSome x) (Ty.ptr e) = determineSize x e := rfl
            rw [hds] at hroom ⊢
            obtain ⟨buf', hm, hlen, hreg⟩ := hme buf s hroom
            exact ⟨buf', hm, hlen, hreg⟩

theorem marshal_exact (v : Val) (ty : Ty) (hwt : wellTyped ty v = true)
    (hnp : noNilPtr v = true) : MarshalsExact v ty :=
  marshal_exact_aux (sizeOf v) v ty le_rfl hwt hnp

/-! ## Little-endian readback -/

theorem mod_mul_decomp (q r M : Nat) (hr : r < 256) (hM : 0 < M) :
    (256 * q + r) % (256 * M) = 256 * (q % M) + r := by
  have h1 : 256 * q + r = (256 * (q % M) + r) + (q / M) * (256 * M) := by
    conv_lhs => rw [← Nat.div_add_mod q M]
    ring
  rw [h1, Nat.add_mul_mod_self_right]
  apply Nat.mod_eq_of_lt
  have : q % M < M := Nat.mod_lt _ hM
  omega

theorem readLE_leBytes : ∀ (w : Nat) (l : List Nat) (off m : Nat),
    (∀ t, t < w → l.getD (off + t) 0 = (leBytes w m).getD t 0) →
    readLEAt l off w = m % 256 ^ w := by
  intro w
  induction w with
  | zero => intro l off m _; simp [readLEAt, Nat.mod_one]
  | succ k ihk =>
      intro l off m hspan
      rw [readLEAt]
      have h0 : l.getD off 0 = m % 256 := by
        have := hspan 0 (by omega)
        simpa [leBytes] using this
      have hrest : readLEAt l (off + 1) k = (m / 256) % 256 ^ k := by
        apply ihk
        intro t ht
        have := hspan (t + 1) (by omega)
        have harr : off + (t + 1) = off + 1 + t := by omega
        rw [harr] at this
        rw [this]
        simp [leBytes]
      rw [h0, hrest]
      have hpow : (256 : Nat) ^ (k + 1) = 256 * 256 ^ k := by ring
      rw [hpow]
      have hdecomp : m % (256 * 256 ^ k) = 256 * (m / 256 % 256 ^ k) + m % 256 := by
        conv_lhs => rw [← Nat.div_add_mod m 256]
        rw [mod_mul_decomp (m / 256) (m % 256) (256 ^ k)
          (Nat.mod_lt _ (by omega)) (Nat.pos_pow_of_pos k (by omega))]
      rw [hdecomp]
      omega

theorem wsub64_zero (a : Nat) (ha : a < 2 ^ 64) : wsub64 a 0 = a := by
  rw [wsub64]
  rw [Nat.mod_eq_of_lt ha]
  simp
  omega

theorem sizeListFixed_take_le (e : Ty) : ∀ (xs : List Val) (i : Nat),
    sizeListFixed (xs.take i) e ≤ sizeListFixed xs e := by
  intro xs
  induction xs with
  | nil => intro i; simp
  | cons x rest ihx =>
      intro i
      cases i with
      | zero => simp [sizeListFixed]
      | succ i' =>
          rw [List.take_succ_cons, sizeListFixed, sizeListFixed]
          have := ihx i'
          omega

theorem sizeListFixed_take_mono (e : Ty) (xs : List Val) {i j : Nat} (hij : i ≤ j) :
    sizeListFixed (xs.take i) e ≤ sizeListFixed (xs.take j) e := by
  have h : xs.take i = (xs.take j).take i := by
    rw [List.take_take]
    congr 1
    omega
  rw [h]
  exact sizeListFixed_take_le e (xs.take j) i

/-! ## Claim C2: the three-field container's layout -/

/-- **C2**: the container `{slot: uint64 = 4, isNew: bool = true,
root: byte-list = {1,2,3,4}}` marshals to exactly 17 bytes: the 8-byte
little-endian slot, the 1-byte bool, a 4-byte little-endian offset equal
to 13, then the 4 root bytes — and not the single byte `[0x01]` that the
in-repo `NewMarshal` test expects. -/
theorem c2_container_layout :
    Marshal (.vstruct [.vuint 4, .vbool true,
        .vlist [.vuint 1, .vuint 2, .vuint 3, .vuint 4]])
      (.strukt [.mk .uint64 0, .mk .bool 0, .mk (.slice .uint8) 0]) =
      .ok (leBytes 8 4 ++ [1] ++ leBytes 4 13 ++ [1, 2, 3, 4]) ∧
    (leBytes 8 4 ++ [1] ++ leBytes 4 13 ++ [1, 2, 3, 4] : List Nat) =
      [4, 0, 0, 0, 0, 0, 0, 0, 1, 13, 0, 0, 0, 1, 2, 3, 4] ∧
    (leBytes 8 4 ++ [1] ++ leBytes 4 13 ++ [1, 2, 3, 4] : List Nat).length = 17 ∧
    (leBytes 8 4 ++ [1] ++ leBytes 4 13 ++ [1, 2, 3, 4] : List Nat) ≠ [1] :=
  ⟨rfl, rfl, rfl, by decide⟩

/-! ## Claim C3: offset well-formedness -/

/-- **C3 (counterexample)**: the three-field container of C2 is a
variable-size composite with N = 3 elements, yet the first 4 bytes of its
Marshal frame decode to 4 (the slot's data), not 4·N = 12 — for containers
the header interleaves fixed-field data with offsets, so the claim as
stated is false. -/
theorem c3_counterexample :
    isVariableSizeType
        (.strukt [.mk .uint64 0, .mk .bool 0, .mk (.slice .uint8) 0]) = true ∧
    Marshal (.vstruct [.vuint 4, .vbool true,
        .vlist [.vuint 1, .vuint 2, .vuint 3, .vuint 4]])
      (.strukt [.mk .uint64 0, .mk .bool 0, .mk (.slice .uint8) 0]) =
      .ok [4, 0, 0, 0, 0, 0, 0, 0, 1, 13, 0, 0, 0, 1, 2, 3, 4] ∧
    readLEAt [4, 0, 0, 0, 0, 0, 0, 0, 1, 13, 0, 0, 0, 1, 2, 3, 4] 0 4 = 4 ∧
    (4 : Nat) ≠ 4 * 3 :=
  ⟨rfl, rfl, rfl, by decide⟩

/-- **C3 (amended)**: for every nonempty slice of variable-size elements
whose value contains no nil pointer and whose frame is shorter than 2³²
bytes, the Marshal frame's first 4 bytes decode to 4·N, the header's
4-byte offsets are monotonically nondecreasing, and every offset is ≤ the
frame length. -/
theorem c3_offsets (e : Ty) (xs : List Val)
    (hwt : wellTyped (.slice e) (.vlist xs) = true)
    (hnp : noNilPtr (.vlist xs) = true)
    (hv : isVariableSizeType e = true)
    (hne : xs ≠ [])
    (hlt : determineSize (.vlist xs) (.slice e) < 2 ^ 32) :
    ∃ frame, Marshal (.vlist xs) (.slice e) = .ok frame ∧
      frame.length = determineSize (.vlist xs) (.slice e) ∧
      readLEAt frame 0 4 = 4 * xs.length ∧
      (∀ i j, i ≤ j → j < xs.length →
        readLEAt frame (4 * i) 4 ≤ readLEAt frame (4 * j) 4) ∧
      (∀ i, i < xs.length → readLEAt frame (4 * i) 4 ≤ frame.length) := by
  have hwl : wellTypedList e xs = true := hwt
  have hnpl : noNilPtrList xs = true := hnp
  have h8f : kindIsUint8 e = false := by
    cases he : kindIsUint8 e
    · rfl
    · obtain rfl := kindIsUint8_eq.mp he
      simp [isVariableSizeType] at hv
  have hds : determineSize (.vlist xs) (.slice e) = sizeListVar xs e := by
    simp [determineSize, h8f, hv]
  have hpw : ∀ x ∈ xs, MarshalsExact x e := by
    intro x hx
    exact marshal_exact x e (wellTypedList_mem hwl hx) (noNilPtrList_mem hnpl hx)
  have hsize : determineSize (.vlist xs) (.slice e) = 4 * xs.length + sizeListFixed xs e := by
    rw [hds, sizeListVar_eq]
  set buf0 := List.replicate (determineSize (.vlist xs) (.slice e)) 0 with hbuf0
  have hbuf0len : buf0.length = 4 * xs.length + sizeListFixed xs e := by
    rw [hbuf0, List.length_replicate, hsize]
  obtain ⟨buf', hloop, hlen, hreg, hhdr⟩ :=
    varLoop_exact e xs hpw buf0 0 (0 + xs.length * 4) 0 (by omega) (by omega)
  have hmm : newMakeMarshaler (.vlist xs) (.slice e) buf0 0 =
      .ok (0 + xs.length * 4 + sizeListFixed xs e, buf') := by
    have hshow : newMakeMarshaler (.vlist xs) (.slice e) buf0 0 =
        marshalVarLoop xs e buf0 0 (0 + xs.length * BytesPerLengthOffset) 0 := by
      simp [newMakeMarshaler, h8f, hv, not_basic_of_var hv,
        not_basicArray_of_var hv, isVariableSizeType]
    rw [hshow]
    simp only [BytesPerLengthOffset]
    exact hloop
  have hMarshal : Marshal (.vlist xs) (.slice e) = .ok buf' := by
    simp only [Marshal]
    rw [← hbuf0, hmm]
  have hblen : buf'.length = 4 * xs.length + sizeListFixed xs e := by
    rw [hlen, hbuf0len]
  have hoi : ∀ i, i < xs.length → readLEAt buf' (4 * i) 4 =
      xs.length * 4 + sizeListFixed (xs.take i) e := by
    intro i hi
    have htle := sizeListFixed_take_le e xs i
    have hspan : ∀ t, t < 4 → buf'.getD (4 * i + t) 0 =
        (leBytes 4 (xs.length * 4 + sizeListFixed (xs.take i) e)).getD t 0 := by
      intro t ht
      have hh := hhdr i hi t ht
      have harr : (0 : Nat) + 4 * i + t = 4 * i + t := by omega
      rw [harr] at hh
      rw [hh]
      have hw : wsub64 (0 + xs.length * 4 + sizeListFixed (xs.take i) e) 0 =
          xs.length * 4 + sizeListFixed (xs.take i) e := by
        have h0 : (0 : Nat) + xs.length * 4 + sizeListFixed (xs.take i) e =
            xs.length * 4 + sizeListFixed (xs.take i) e := by omega
        rw [h0]
        exact wsub64_zero _ (by omega)
      rw [hw]
    have hread := readLE_leBytes 4 buf' (4 * i)
      (xs.length * 4 + sizeListFixed (xs.take i) e) hspan
    rw [hread]
    apply Nat.mod_eq_of_lt
    have h4 : (256 : Nat) ^ 4 = 2 ^ 32 := by norm_num
    omega
  have hL0 : 0 < xs.length := List.length_pos.mpr hne
  refine ⟨buf', hMarshal, by rw [hblen, hsize], ?_, ?_, ?_⟩
  · have h0 := hoi 0 hL0
    have hz : (4 * 0 : Nat) = 0 := by omega
    rw [hz] at h0
    rw [h0]
    simp [sizeListFixed]
    omega
  · intro i j hij hj
    rw [hoi i (by omega), hoi j hj]
    have := sizeListFixed_take_mono e xs hij
    omega
  · intro i hi
    rw [hoi i hi, hblen]
    have := sizeListFixed_take_le e xs i
    omega

/-- Witness for `c3_offsets`: the two-element list of byte-lists
`[[1], [2, 3]]` (frame `[8,0,0,0, 9,0,0,0, 1, 2,3]`, offsets 8 ≤ 9 ≤ 11). -/
theorem c3_offsets_witness :
    ∃ frame, Marshal (.vlist [.vlist [.vuint 1], .vlist [.vuint 2, .vuint 3]])
        (.slice (.slice .uint8)) = .ok frame ∧
      frame.length = 11 ∧
      readLEAt frame 0 4 = 4 * 2 ∧
      (∀ i j, i ≤ j → j < 2 →
        readLEAt frame (4 * i) 4 ≤ readLEAt frame (4 * j) 4) ∧
      (∀ i, i < 2 → readLEAt frame (4 * i) 4 ≤ frame.length) :=
  c3_offsets (.slice .uint8) [.vlist [.vuint 1], .vlist [.vuint 2, .vuint 3]]
    rfl rfl rfl (List.cons_ne_nil _ _) (by decide)

/-! ## Claim C4: nil pointers serialize to nothing and hash to zeros -/

/-- **C4**: a nil pointer marshals to zero bytes — the pointer marshaler
leaves the buffer untouched and `Marshal` of a nil pointer value returns
the empty byte string — and its hash tree root is the 32-byte all-zero
value. -/
theorem c4_nil_pointer (ety : Ty) :
    (∀ buf s, newmakePtrMarshaler .vptrNil ety buf s = .ok (0, buf)) ∧
    Marshal .vptrNil (.ptr ety) = .ok [] ∧
    (∀ (H : List Nat → List Nat) (useC : Bool) (st : HashSt) (cap : Nat),
      newMakePtrHasher H useC st .vptrNil ety cap = .ok (zeroChunk, st)) ∧
    zeroChunk = List.replicate 32 0 :=
  ⟨fun _ _ => rfl, rfl, fun _ _ _ _ => rfl, rfl⟩

/-! ## Claim C9: the nil-pointer marshaler resets the rolling cursor to 0 -/

/-- **C9**: for every buffer and start offset `s`, `newmakePtrMarshaler` on
a nil pointer returns write cursor 0 (not `s`); consequently, in the
variable-element loop of `newmakeCompositeSliceMarshaler` the rolling tail
cursor after a nil variable-size pointer element becomes 0 instead of
remaining at its pre-element position. -/
theorem c9_nil_ptr_cursor_reset (t : Ty) (hvar : isVariableSizeType t = true) :
    (∀ buf s, newmakePtrMarshaler .vptrNil t buf s = .ok (0, buf)) ∧
    (∀ (xs : List Val) (buf : List Nat) (fix cur start : Nat),
      marshalVarLoop (.vptrNil :: xs) (.ptr t) buf fix cur start =
        (copyAt buf fix (fix + BytesPerLengthOffset)
          (leBytes 4 (wsub64 cur start))).bind
          (fun buf2 => marshalVarLoop xs (.ptr t) buf2
            (fix + BytesPerLengthOffset) 0 start)) := by
  refine ⟨fun _ _ => rfl, fun xs buf fix cur start => ?_⟩
  rw [marshalVarLoop]
  rfl

/-- Witness for `c9_nil_ptr_cursor_reset` at the variable-size pointee
`[]byte`, start offset 4, an 8-byte buffer. -/
theorem c9_witness :
    isVariableSizeType (Ty.slice Ty.uint8) = true ∧
    newmakePtrMarshaler .vptrNil (.slice .uint8) (List.replicate 8 0) 4 =
      .ok (0, List.replicate 8 0) ∧
    marshalVarLoop [Val.vptrNil] (.ptr (.slice .uint8)) (List.replicate 8 0) 0 4 0 =
      (copyAt (List.replicate 8 0) 0 (0 + BytesPerLengthOffset)
        (leBytes 4 (wsub64 4 0))).bind
        (fun buf2 => marshalVarLoop [] (.ptr (.slice .uint8)) buf2
          (0 + BytesPerLengthOffset) 0 0) :=
  ⟨rfl, (c9_nil_ptr_cursor_reset (.slice .uint8) rfl).1 _ _,
    (c9_nil_ptr_cursor_reset (.slice .uint8) rfl).2 [] _ 0 4 0⟩

/-! ## Claim C1: the round-trip property -/

/-- **C1 (counterexample)**: round-trip fails already for the bool
descriptor: `Marshal true = [0x01]`, but the first-draft `NewUnmarshal`
dispatcher handles only byte slices and byte arrays and rejects bool with
a "not deserializable" error. -/
theorem c1_counterexample :
    Marshal (.vbool true) .bool = .ok [1] ∧
    NewUnmarshal [1] .bool = .error .undeserializable := by
  constructor
  · rfl
  · simp [NewUnmarshal, newMakeUnmarshaler1, Except.map]

/-- **C1 (amended)**: the round-trip holds precisely on the kind the
first-draft unmarshaler supports: for every representable byte-slice value,
unmarshaling the marshaled bytes succeeds and returns the original value. -/
theorem c1_roundtrip_byteslice (bs : List Nat)
    (hwt : wellTyped (.slice .uint8) (.vlist (bs.map .vuint)) = true) :
    (Marshal (.vlist (bs.map .vuint)) (.slice .uint8)).bind
      (fun frame => NewUnmarshal frame (.slice .uint8)) =
      .ok (.vlist (bs.map .vuint)) := by
  have hbytes : bytesOfVals (listOf (Val.vlist (bs.map Val.vuint))) = bs := by
    simp [bytesOfVals, listOf, uintVal, List.map_map]
    exact List.map_id bs
  have hds : determineSize (Val.vlist (bs.map Val.vuint)) (Ty.slice Ty.uint8)
      = bs.length := by
    simp [determineSize, kindIsUint8]
  have hcopy : copyAt (List.replicate bs.length 0) 0 (0 + bs.length) bs = .ok bs := by
    rw [copyAt_eq _ _ _ _ (by omega) (by simp)]
    congr 1
    simp
  have hm : newMakeMarshaler (Val.vlist (bs.map Val.vuint)) (Ty.slice Ty.uint8)
      (List.replicate bs.length 0) 0 = .ok (0 + bs.length, bs) := by
    show newMarshalByteSlice (Val.vlist (bs.map Val.vuint))
      (List.replicate bs.length 0) 0 = _
    simp only [newMarshalByteSlice, hbytes]
    rw [hcopy]
    simp [exceptBind_ok]
  have hMarshal : Marshal (Val.vlist (bs.map Val.vuint)) (Ty.slice Ty.uint8)
      = .ok bs := by
    simp only [Marshal, hds]
    rw [hm]
  have hu : NewUnmarshal bs (Ty.slice Ty.uint8) = .ok (Val.vlist (bs.map Val.vuint)) := by
    rw [NewUnmarshal]
    simp [newMakeUnmarshaler1, newByteSliceUnmarshaler, kindIsUint8, Except.map]
  rw [hMarshal]
  exact hu

/-- Witness for `c1_roundtrip_byteslice` at the byte slice `[7, 8]`. -/
theorem c1_roundtrip_witness :
    (Marshal (.vlist ([7, 8].map .vuint)) (.slice .uint8)).bind
      (fun frame => NewUnmarshal frame (.slice .uint8)) =
      .ok (.vlist ([7, 8].map .vuint)) :=
  c1_roundtrip_byteslice [7, 8] rfl

/-! ## Claim C8: signed 32-bit decoding -/

/-- **C8**: for every input and start offset, the second-draft dispatcher
decodes an `int32` destination exactly as a `uint32` destination — both are
routed to `unmarshalUint32` — while the marshaling dispatcher handles only
unsigned kinds and rejects `int32` as unserializable. -/
theorem c8_int32_decode (input : List Nat) (s : Nat) :
    newMakeUnmarshaler2 input .int32 s = newMakeUnmarshaler2 input .uint32 s ∧
    newMakeUnmarshaler2 input .int32 s = unmarshalUint32 input s ∧
    (∀ (v : Val) (buf : List Nat) (s' : Nat),
      newMakeMarshaler v .int32 buf s' = .error .unserializable) :=
  ⟨rfl, rfl, fun v _ _ => by cases v <;> rfl⟩

/-! ## Claim C7: the codec-cache sentinel is removed on failure -/

/-- **C7**: when the codec cache misses for a type and construction fails,
`cachedSSZUtilsNoAcquireLock` removes the dummy sentinel it installed
before construction: the call returns the error and the resulting cache
holds no entry for that type. -/
theorem c7_sentinel_removed {U : Type} (dummy : U)
    (gen : UtilsCache U → Ty → Except Err U × UtilsCache U)
    (cache : UtilsCache U) (typ : Ty) (e : Err) (c2 : UtilsCache U)
    (hmiss : lookupUtils cache typ = none)
    (hfail : gen (insertUtils cache typ dummy) typ = (.error e, c2)) :
    cachedSSZUtilsNoAcquireLock dummy gen cache typ =
      (.error e, eraseUtils c2 typ) ∧
    lookupUtils (cachedSSZUtilsNoAcquireLock dummy gen cache typ).2 typ = none := by
  have hres : cachedSSZUtilsNoAcquireLock dummy gen cache typ =
      (.error e, eraseUtils c2 typ) := by
    simp only [cachedSSZUtilsNoAcquireLock, hmiss, hfail]
  refine ⟨hres, ?_⟩
  rw [hres]
  simp only [lookupUtils, eraseUtils]
  have hnone : (c2.filter (fun e' => !Ty.beq e'.1 typ)).find?
      (fun e' => Ty.beq e'.1 typ) = none := by
    rw [List.find?_eq_none]
    intro x hx
    have hmem := (List.mem_filter.mp hx).2
    simp only [Bool.not_eq_true'] at hmem
    simp [hmem]
  rw [hnone]
  rfl

/-- Witness for `c7_sentinel_removed`: an always-failing generator on an
empty cache and the bool descriptor. -/
theorem c7_witness :
    cachedSSZUtilsNoAcquireLock (0 : Nat)
        (fun c _ => (.error .unsupported, c)) [] .bool =
      (.error .unsupported, eraseUtils (insertUtils [] .bool 0) .bool) ∧
    lookupUtils (cachedSSZUtilsNoAcquireLock (0 : Nat)
        (fun c _ => (.error .unsupported, c)) [] .bool).2 .bool = none :=
  c7_sentinel_removed 0 (fun c _ => (.error .unsupported, c)) [] .bool
    .unsupported (insertUtils [] .bool 0) rfl rfl

/-! ## Claim C10: the abandoned draft hasher is a stub -/

/-- **C10**: the draft `NewHashTreeRoot` of `newhash_tree_root.go` returns
the 32-byte all-zero root and no error for every non-nil value — its
dispatcher `newMakeHasher` has its entire body commented out — while the
untyped-nil guard still rejects `nil`. -/
theorem c10_stub_returns_zero (v : Val) :
    NewHashTreeRoot (some v) = .ok zeroChunk ∧
    zeroChunk = List.replicate 32 0 ∧
    NewHashTreeRoot none = .error .untypedNil :=
  ⟨rfl, rfl, rfl⟩

/-! ## Claim C5: the empty composite list with zero capacity -/

/-- **C5**: a list of composite elements with length 0 and maxCapacity 0
hashes to `mixInLength (bitwiseMerkleize [] 0 true) zeros32` — which
evaluates to one hash of 64 zero bytes. -/
theorem c5_empty_composite_list (H : List Nat → List Nat) (useC : Bool)
    (st : HashSt) (ety : Ty) (cap : Nat)
    (hb : isBasicType ety = false) (hba : isBasicTypeArray ety = false)
    (hcap : cap = 0) :
    newMakeHasherC H useC st (.vlist []) (.slice ety) cap =
      .ok (mixInLength H (bitwiseMerkleize H [] 0 true)
        (List.replicate 32 0), st) ∧
    mixInLength H (bitwiseMerkleize H [] 0 true) (List.replicate 32 0) =
      H (List.replicate 32 0 ++ List.replicate 32 0) := by
  subst hcap
  constructor
  · have houter : (isBasicType (.slice ety) || isBasicTypeArray (.slice ety)) = false := rfl
    simp [newMakeHasherC, houter, hb, hba, newCompositeSliceHasherC]
  · have hmk : bitwiseMerkleize H [] 0 true = zeroChunk := by
      simp [bitwiseMerkleize, merkleRounds, Nat.clog_one_right]
    rw [hmk]
    rfl

/-- Witness for `c5_empty_composite_list`: the empty list of byte-lists,
capacity 0, cache on, empty cache state, the constant-zero hash. -/
theorem c5_witness :
    newMakeHasherC (fun _ => List.replicate 32 0) true emptyHashSt
        (.vlist []) (.slice (.slice .uint8)) 0 =
      .ok (mixInLength (fun _ => List.replicate 32 0)
        (bitwiseMerkleize (fun _ => List.replicate 32 0) [] 0 true)
        (List.replicate 32 0), emptyHashSt) ∧
    mixInLength (fun _ => List.replicate 32 0)
        (bitwiseMerkleize (fun _ => List.replicate 32 0) [] 0 true)
        (List.replicate 32 0) =
      (fun _ => List.replicate 32 0) (List.replicate 32 0 ++ List.replicate 32 0) :=
  c5_empty_composite_list (fun _ => List.replicate 32 0) true emptyHashSt
    (.slice .uint8) 0 rfl rfl rfl

/-! ## Claim C6: cache transparency

The plan: a cache state is *coherent* when every stored root equals the
root the cache-free hasher computes for its key.  We show the `useCache =
false` run ignores and preserves the state, that the `useCache = true` run
returns the same roots and keeps the state coherent, and conclude that
`HashTreeRoot` and `HashTreeRootWithCapacity` produce identical output
under both settings. -/

theorem sizeOf_ty_pos (a : Ty) : 1 ≤ sizeOf a := by
  cases a <;> simp_arith

theorem tybeq_sound_aux : ∀ (n : Nat),
    (∀ a b : Ty, sizeOf a ≤ n → Ty.beq a b = true → a = b) ∧
    (∀ fs gs : List SField, sizeOf fs ≤ n → SField.beqList fs gs = true → fs = gs) := by
  intro n
  induction n with
  | zero =>
      constructor
      · intro a b hsz
        exact absurd hsz (by have := sizeOf_ty_pos a; omega)
      · intro fs gs hsz
        exact absurd hsz (by cases fs <;> simp_arith)
  | succ m ih =>
      obtain ⟨ihT, ihL⟩ := ih
      constructor
      · intro a b hsz h
        cases a <;> cases b <;> try (solve | rfl | simp [Ty.beq] at h)
        case slice.slice ea eb =>
            rw [Ty.beq] at h
            have : ea = eb := ihT ea eb (by simp at hsz; omega) h
            rw [this]
        case array.array ea na eb nb =>
            rw [Ty.beq] at h
            simp only [Bool.and_eq_true, beq_iff_eq] at h
            have : ea = eb := ihT ea eb (by simp at hsz; omega) h.1
            rw [this, h.2]
        case strukt.strukt fsa fsb =>
            rw [Ty.beq] at h
            have : fsa = fsb := ihL fsa fsb (by simp at hsz; omega) h
            rw [this]
        case ptr.ptr ea eb =>
            rw [Ty.beq] at h
            have : ea = eb := ihT ea eb (by simp at hsz; omega) h
            rw [this]
      · intro fs gs hsz h
        cases fs with
        | nil => cases gs with
            | nil => rfl
            | cons g gr => exact absurd h (by simp [SField.beqList])
        | cons f fr =>
            cases gs with
            | nil => cases f with
                | mk t c => exact absurd h (by simp [SField.beqList])
            | cons g gr =>
                cases f with
                | mk t c =>
                    cases g with
                    | mk t' c' =>
                        rw [SField.beqList] at h
                        simp only [Bool.and_eq_true, beq_iff_eq] at h
                        have ht : t = t' := ihT t t' (by simp at hsz; omega) h.1.1
                        have hr : fr = gr := ihL fr gr (by simp at hsz; omega) h.2
                        rw [ht, h.1.2, hr]

theorem tyBeq_sound {a b : Ty} (h : Ty.beq a b = true) : a = b :=
  (tybeq_sound_aux (sizeOf a)).1 a b le_rfl h

theorem valbeq_sound_aux : ∀ (n : Nat),
    (∀ a b : Val, sizeOf a ≤ n → Val.beq a b = true → a = b) ∧
    (∀ xs ys : List Val, sizeOf xs ≤ n → Val.beqList xs ys = true → xs = ys) := by
  intro n
  induction n with
  | zero =>
      constructor
      · intro a b hsz
        exact absurd hsz (by have := sizeOf_val_pos a; omega)
      · intro xs ys hsz
        exact absurd hsz (by cases xs <;> simp_arith)
  | succ m ih =>
      obtain ⟨ihV, ihL⟩ := ih
      constructor
      · intro a b hsz h
        cases a <;> cases b <;> try (solve | rfl | simp [Val.beq] at h)
        case vbool.vbool x y =>
            rw [Val.beq] at h
            simp only [beq_iff_eq] at h
            rw [h]
        case vuint.vuint x y =>
            rw [Val.beq] at h
            simp only [beq_iff_eq] at h
            rw [h]
        case vlist.vlist xs ys =>
            rw [Val.beq] at h
            have : xs = ys := ihL xs ys (by simp at hsz; omega) h
            rw [this]
        case vstruct.vstruct xs ys =>
            rw [Val.beq] at h
            have : xs = ys := ihL xs ys (by simp at hsz; omega) h
            rw [this]
        case vptrSome.vptrSome x y =>
            rw [Val.beq] at h
            have : x = y := ihV x y (by simp at hsz; omega) h
            rw [this]
      · intro xs ys hsz h
        cases xs with
        | nil => cases ys with
            | nil => rfl
            | cons y yr => exact absurd h (by simp [Val.beqList])
        | cons x xr =>
            cases ys with
            | nil => exact absurd h (by simp [Val.beqList])
            | cons y yr =>
                rw [Val.beqList] at h
                simp only [Bool.and_eq_true] at h
                have hx : x = y := ihV x y (by simp at hsz; omega) h.1
                have hr : xr = yr := ihL xr yr (by simp at hsz; omega) h.2
                rw [hx, hr]

theorem valBeq_sound {a b : Val} (h : Val.beq a b = true) : a = b :=
  (valbeq_sound_aux (sizeOf a)).1 a b le_rfl h

theorem keyBeq_sound {k k' : HKey} (h : keyBeq k k' = true) : k = k' := by
  obtain ⟨v, t, c⟩ := k
  obtain ⟨v', t', c'⟩ := k'
  rw [keyBeq] at h
  simp only [Bool.and_eq_true, beq_iff_eq] at h
  rw [valBeq_sound h.1.1, tyBeq_sound h.1.2, h.2]

/-- The canonical cache-free root: the hasher with the toggle off, run on
the empty cache state. -/
def pureRoot (H : List Nat → List Nat) (v : Val) (ty : Ty) (cap : Nat) :
    Except Err (List Nat) :=
  (newMakeHasherC H false emptyHashSt v ty cap).map Prod.fst

/-- A hash-cache state is coherent when every stored root is the root the
cache-free hasher computes for its key. -/
def Coherent (H : List Nat → List Nat) (st : HashSt) : Prop :=
  ∀ (v : Val) (ty : Ty) (cap : Nat) (r : List Nat),
    findEntry st (v, ty, cap) = some r →
    newMakeHasherC H false emptyHashSt v ty cap = .ok (r, emptyHashSt)

theorem coherent_empty (H : List Nat → List Nat) : Coherent H emptyHashSt := by
  intro v ty cap r h
  simp [findEntry, emptyHashSt] at h

/-! Step equations for the hasher dispatcher. -/

theorem hasherC_basic (H : List Nat → List Nat) (useC : Bool) (st : HashSt)
    (v : Val) (ty : Ty) (cap : Nat)
    (hb : (isBasicType ty || isBasicTypeArray ty) = true) :
    newMakeHasherC H useC st v ty cap =
      (newMakeBasicTypeHasher H v ty).map (fun r => (r, st)) := by
  rw [newMakeHasherC.eq_def]
  simp [hb]

theorem hasherC_slice_basic (H : List Nat → List Nat) (useC : Bool) (st : HashSt)
    (xs : List Val) (e : Ty) (cap : Nat)
    (hbe : (isBasicType e || isBasicTypeArray e) = true) :
    newMakeHasherC H useC st (.vlist xs) (.slice e) cap =
      newBasicSliceHasherC H useC st xs e cap := by
  have houter : (isBasicType (.slice e) || isBasicTypeArray (.slice e)) = false := rfl
  rw [newMakeHasherC.eq_def]
  simp [houter, hbe]

theorem hasherC_slice_comp (H : List Nat → List Nat) (useC : Bool) (st : HashSt)
    (xs : List Val) (e : Ty) (cap : Nat)
    (hbe : (isBasicType e || isBasicTypeArray e) = false) :
    newMakeHasherC H useC st (.vlist xs) (.slice e) cap =
      newCompositeSliceHasherC H useC st xs e cap := by
  have houter : (isBasicType (.slice e) || isBasicTypeArray (.slice e)) = false := rfl
  rw [newMakeHasherC.eq_def]
  simp [houter, hbe]

theorem hasherC_array_basicArr (H : List Nat → List Nat) (useC : Bool) (st : HashSt)
    (xs : List Val) (e : Ty) (n cap : Nat)
    (hout : (isBasicType (.array e n) || isBasicTypeArray (.array e n)) = false)
    (hba : isBasicTypeArray e = true) :
    newMakeHasherC H useC st (.vlist xs) (.array e n) cap =
      newBasicArrayHasherC H useC st xs e := by
  rw [newMakeHasherC.eq_def]
  simp [hout, hba]

theorem hasherC_array_comp (H : List Nat → List Nat) (useC : Bool) (st : HashSt)
    (xs : List Val) (e : Ty) (n cap : Nat)
    (hout : (isBasicType (.array e n) || isBasicTypeArray (.array e n)) = false)
    (hba : isBasicTypeArray e = false) :
    newMakeHasherC H useC st (.vlist xs) (.array e n) cap =
      newCompositeArrayHasherC H useC st xs e := by
  rw [newMakeHasherC.eq_def]
  simp [hout, hba]

theorem hasherC_strukt (H : List Nat → List Nat) (useC : Bool) (st : HashSt)
    (vs : List Val) (fs : List SField) (cap : Nat) :
    newMakeHasherC H useC st (.vstruct vs) (.strukt fs) cap =
      match fieldsHashLoop H useC st vs fs with
      | .ok (roots, st') => .ok (bitwiseMerkleize H roots fs.length true, st')
      | .error e => .error e := by
  have houter : (isBasicType (.strukt fs) || isBasicTypeArray (.strukt fs)) = false := rfl
  rw [newMakeHasherC.eq_def]
  simp only [houter, Bool.false_eq_true, if_false]
  cases fieldsHashLoop H useC st vs fs with
  | ok p => rfl
  | error e => rfl

theorem siteC_false (H : List Nat → List Nat) (st : HashSt)
    (v : Val) (ty : Ty) (cap : Nat) :
    newLookupSite H false st v ty cap = newMakeHasherC H false st v ty cap := by
  rw [newLookupSite.eq_def]
  simp

theorem siteC_true (H : List Nat → List Nat) (st : HashSt)
    (v : Val) (ty : Ty) (cap : Nat) :
    newLookupSite H true st v ty cap =
      match findEntry st (v, ty, cap) with
      | some r => .ok (r, st)
      | none =>
          match newMakeHasherC H true st v ty cap with
          | .ok (r, st') => .ok (r, insertEntry st' (v, ty, cap) r)
          | .error e => .error e := by
  rw [newLookupSite.eq_def]
  simp

theorem hasherC_int32 (H : List Nat → List Nat) (useC : Bool) (st : HashSt)
    (v : Val) (cap : Nat) :
    newMakeHasherC H useC st v .int32 cap = .error .unsupported := by
  rw [newMakeHasherC.eq_def]
  simp [isBasicType, isBasicTypeArray]

/-- Whether a value is of list shape (slice/array contents). -/
def listShape : Val → Bool
  | .vlist _ => true
  | _ => false

/-- Whether a value is of struct shape. -/
def structShape : Val → Bool
  | .vstruct _ => true
  | _ => false

theorem hasherC_not_vlist (H : List Nat → List Nat) (useC : Bool) (st : HashSt)
    (v : Val) (e : Ty) (cap : Nat)
    (hout : (isBasicType (.slice e) || isBasicTypeArray (.slice e)) = false)
    (hv : listShape v = false) :
    newMakeHasherC H useC st v (.slice e) cap = .error .panicOOB := by
  rw [newMakeHasherC.eq_def]
  cases v <;> simp_all [listShape, hout]

theorem hasherC_array_not_vlist (H : List Nat → List Nat) (useC : Bool) (st : HashSt)
    (v : Val) (e : Ty) (n cap : Nat)
    (hout : (isBasicType (.array e n) || isBasicTypeArray (.array e n)) = false)
    (hv : listShape v = false) :
    newMakeHasherC H useC st v (.array e n) cap = .error .panicOOB := by
  rw [newMakeHasherC.eq_def]
  cases v <;> simp_all [listShape, hout]

theorem hasherC_not_vstruct (H : List Nat → List Nat) (useC : Bool) (st : HashSt)
    (v : Val) (fs : List SField) (cap : Nat)
    (hv : structShape v = false) :
    newMakeHasherC H useC st v (.strukt fs) cap = .error .panicOOB := by
  have houter : (isBasicType (.strukt fs) || isBasicTypeArray (.strukt fs)) = false := rfl
  rw [newMakeHasherC.eq_def]
  cases v <;> simp_all [structShape, houter]

/-! Step equations for the hasher loops. -/

theorem arrayLoop_nil (H : List Nat → List Nat) (useC : Bool) (st : HashSt) (ety : Ty) :
    arrayLeavesLoop H useC st [] ety = ([], st) := by
  rw [arrayLeavesLoop.eq_def]

theorem arrayLoop_cons (H : List Nat → List Nat) (useC : Bool) (st : HashSt)
    (x : Val) (rest : List Val) (ety : Ty) :
    arrayLeavesLoop H useC st (x :: rest) ety =
      match newLookupSite H useC st x ety 0 with
      | .ok (r, st1) =>
          match arrayLeavesLoop H useC st1 rest ety with
          | (ls, st2) => (r :: ls, st2)
      | .error _ =>
          match arrayLeavesLoop H useC st rest ety with
          | (ls, st2) => (zeroChunk :: ls, st2) := by
  rw [arrayLeavesLoop.eq_def]

theorem basicLeavesLoop_nil (H : List Nat → List Nat) (useC : Bool) (st : HashSt)
    (ety : Ty) : basicSliceLeavesLoop H useC st [] ety = .ok ([], st) := by
  rw [basicSliceLeavesLoop.eq_def]

theorem basicLeavesLoop_cons (H : List Nat → List Nat) (useC : Bool) (st : HashSt)
    (x : Val) (rest : List Val) (ety : Ty) :
    basicSliceLeavesLoop H useC st (x :: rest) ety =
      if valKindBasic x then
        match newMakeMarshaler x ety (List.replicate (determineSize x ety) 0) 0 with
        | .ok (_, innerBuf) =>
            match basicSliceLeavesLoop H useC st rest ety with
            | .ok (ls, st') => .ok (innerBuf :: ls, st')
            | .error e => .error e
        | .error e => .error e
      else
        match newLookupSite H useC st x ety 0 with
        | .ok (r, st1) =>
            match basicSliceLeavesLoop H useC st1 rest ety with
            | .ok (ls, st2) => .ok (r :: ls, st2)
            | .error e => .error e
        | .error e => .error e := by
  rw [basicSliceLeavesLoop.eq_def]

theorem compRootsLoop_nil (H : List Nat → List Nat) (useC : Bool) (st : HashSt)
    (ety : Ty) : compositeSliceRootsLoop H useC st [] ety = .ok ([], st) := by
  rw [compositeSliceRootsLoop.eq_def]

theorem compRootsLoop_cons (H : List Nat → List Nat) (useC : Bool) (st : HashSt)
    (x : Val) (rest : List Val) (ety : Ty) :
    compositeSliceRootsLoop H useC st (x :: rest) ety =
      match newLookupSite H useC st x ety 0 with
      | .ok (r, st1) =>
          match compositeSliceRootsLoop H useC st1 rest ety with
          | .ok (ls, st2) => .ok (r :: ls, st2)
          | .error e => .error e
      | .error e => .error e := by
  rw [compositeSliceRootsLoop.eq_def]

theorem fieldsLoop_nil (H : List Nat → List Nat) (useC : Bool) (st : HashSt)
    (fs : List SField) : fieldsHashLoop H useC st [] fs = .ok ([], st) := by
  rw [fieldsHashLoop.eq_def]

theorem fieldsLoop_nilfs (H : List Nat → List Nat) (useC : Bool) (st : HashSt)
    (vs : List Val) : fieldsHashLoop H useC st vs [] = .ok ([], st) := by
  rw [fieldsHashLoop.eq_def]
  cases vs <;> rfl

theorem fieldsLoop_cons (H : List Nat → List Nat) (useC : Bool) (st : HashSt)
    (v : Val) (vrest : List Val) (fty : Ty) (fcap : Nat) (frest : List SField) :
    fieldsHashLoop H useC st (v :: vrest) (.mk fty fcap :: frest) =
      match newLookupSite H useC st v fty fcap with
      | .ok (r, st1) =>
          match fieldsHashLoop H useC st1 vrest frest with
          | .ok (rs, st2) => .ok (r :: rs, st2)
          | .error e => .error e
      | .error e => .error e := by
  rw [fieldsHashLoop.eq_def]

theorem basicSliceHasherC_eq (H : List Nat → List Nat) (useC : Bool) (st : HashSt)
    (xs : List Val) (ety : Ty) (cap : Nat) :
    newBasicSliceHasherC H useC st xs ety cap =
      match basicSliceLeavesLoop H useC st xs ety with
      | .ok (leaves, st') =>
          .ok (mixInLength H (bitwiseMerkleize H (pack leaves)
            (let elemSize := if isBasicType ety then
                determineFixedSize (.vlist xs) ety else 32
             let limit := (cap * elemSize + 31) / 32
             if limit = 0 then 1 else limit) true) (lenBuf32 xs.length), st')
      | .error e => .error e := by
  rw [newBasicSliceHasherC.eq_def]

theorem compSliceHasherC_eq (H : List Nat → List Nat) (useC : Bool) (st : HashSt)
    (xs : List Val) (ety : Ty) (cap : Nat) :
    newCompositeSliceHasherC H useC st xs ety cap =
      if xs.length = 0 ∧ cap = 0 then
        .ok (mixInLength H (bitwiseMerkleize H [] 0 true) (List.replicate 32 0), st)
      else
        match compositeSliceRootsLoop H useC st xs ety with
        | .ok (roots, st') =>
            .ok (mixInLength H (bitwiseMerkleize H (pack roots)
              (if cap = 0 then xs.length else cap) true) (lenBuf32 xs.length), st')
        | .error e => .error e := by
  rw [newCompositeSliceHasherC.eq_def]

theorem basicArrayHasherC_eq (H : List Nat → List Nat) (useC : Bool) (st : HashSt)
    (xs : List Val) (ety : Ty) :
    newBasicArrayHasherC H useC st xs ety =
      match arrayLeavesLoop H useC st xs ety with
      | (leaves, st') =>
          .ok (bitwiseMerkleize H
            (if xs.length = 0 then [] else pack leaves) 1 false, st') := by
  rw [newBasicArrayHasherC.eq_def]

theorem compArrayHasherC_eq (H : List Nat → List Nat) (useC : Bool) (st : HashSt)
    (xs : List Val) (ety : Ty) :
    newCompositeArrayHasherC H useC st xs ety =
      match arrayLeavesLoop H useC st xs ety with
      | (roots, st') =>
          .ok (bitwiseMerkleize H
            (if xs.length = 0 then [] else pack roots)
            ((xs.length * (if isBasicType ety then
              determineFixedSize (.vlist xs) ety else 32) + 31) / 32) true, st') := by
  rw [newCompositeArrayHasherC.eq_def]

/-! With the toggle off, every run ignores and preserves the cache state:
its behaviour equals the canonical empty-state run. -/

/-- Shorthand for the state-independence property of the hasher at level `m`. -/
def FalseIndep (H : List Nat → List Nat) (m : Nat) : Prop :=
  ∀ (v : Val) (ty : Ty) (cap : Nat) (st : HashSt), sizeOf v ≤ m →
    newMakeHasherC H false st v ty cap =
      (newMakeHasherC H false emptyHashSt v ty cap).map (fun p => (p.1, st))

theorem falseA_site (H : List Nat → List Nat) (m : Nat) (ihH : FalseIndep H m)
    (v : Val) (ty : Ty) (cap : Nat) (st : HashSt) (hsz : sizeOf v ≤ m) :
    newLookupSite H false st v ty cap =
      (newLookupSite H false emptyHashSt v ty cap).map (fun p => (p.1, st)) := by
  rw [siteC_false, siteC_false]
  exact ihH v ty cap st hsz

theorem falseA_arrayLoop (H : List Nat → List Nat) (m : Nat) (ihH : FalseIndep H m) :
    ∀ (xs : List Val) (ety : Ty) (st : HashSt), (∀ x ∈ xs, sizeOf x ≤ m) →
      arrayLeavesLoop H false st xs ety =
        ((arrayLeavesLoop H false emptyHashSt xs ety).1, st) := by
  intro xs
  induction xs with
  | nil =>
      intro ety st _
      rw [arrayLoop_nil, arrayLoop_nil]
  | cons x rest ihx =>
      intro ety st hall
      rw [arrayLoop_cons, arrayLoop_cons]
      rw [siteC_false, siteC_false]
      rw [ihH x ety 0 st (hall x (List.mem_cons_self x rest))]
      have hrest := ihx ety st (fun y hy => hall y (List.mem_cons_of_mem x hy))
      cases hemp : newMakeHasherC H false emptyHashSt x ety 0 with
      | ok p =>
          obtain ⟨r, ste⟩ := p
          simp only [Except.map]
          have hstE : arrayLeavesLoop H false emptyHashSt rest ety =
              ((arrayLeavesLoop H false emptyHashSt rest ety).1, emptyHashSt) := by
            have := ihx ety emptyHashSt (fun y hy => hall y (List.mem_cons_of_mem x hy))
            exact this
          have hste : ste = emptyHashSt := by
            have := ihH x ety 0 emptyHashSt (hall x (List.mem_cons_self x rest))
            rw [hemp] at this
            simp [Except.map] at this
            exact this
          rw [hste, hrest, hstE]
      | error e =>
          simp only [Except.map]
          rw [hrest]

theorem falseA_basicLeavesLoop (H : List Nat → List Nat) (m : Nat) (ihH : FalseIndep H m) :
    ∀ (xs : List Val) (ety : Ty) (st : HashSt), (∀ x ∈ xs, sizeOf x ≤ m) →
      basicSliceLeavesLoop H false st xs ety =
        (basicSliceLeavesLoop H false emptyHashSt xs ety).map (fun p => (p.1, st)) := by
  intro xs
  induction xs with
  | nil =>
      intro ety st _
      rw [basicLeavesLoop_nil, basicLeavesLoop_nil]
      rfl
  | cons x rest ihx =>
      intro ety st hall
      have hrest := ihx ety st (fun y hy => hall y (List.mem_cons_of_mem x hy))
      have hrestE := ihx ety emptyHashSt (fun y hy => hall y (List.mem_cons_of_mem x hy))
      rw [basicLeavesLoop_cons, basicLeavesLoop_cons]
      by_cases hbk : valKindBasic x = true
      · simp only [hbk, if_true]
        cases hm : newMakeMarshaler x ety (List.replicate (determineSize x ety) 0) 0 with
        | ok p =>
            obtain ⟨idx, innerBuf⟩ := p
            rw [hrest]
            cases hre : basicSliceLeavesLoop H false emptyHashSt rest ety with
            | ok q => obtain ⟨ls, ste⟩ := q; simp [Except.map]
            | error e => simp [Except.map]
        | error e => simp [Except.map]
      · simp only [hbk, Bool.false_eq_true, if_false]
        rw [siteC_false, siteC_false]
        rw [ihH x ety 0 st (hall x (List.mem_cons_self x rest))]
        cases hemp : newMakeHasherC H false emptyHashSt x ety 0 with
        | ok p =>
            obtain ⟨r, ste⟩ := p
            have hste : ste = emptyHashSt := by
              have := ihH x ety 0 emptyHashSt (hall x (List.mem_cons_self x rest))
              rw [hemp] at this
              simp [Except.map] at this
              exact this
            subst hste
            simp only [Except.map]
            rw [hrest]
            cases hre : basicSliceLeavesLoop H false emptyHashSt rest ety with
            | ok q => obtain ⟨ls, st2⟩ := q; simp [Except.map]
            | error e => simp [Except.map]
        | error e => simp [Except.map]

theorem falseA_compRootsLoop (H : List Nat → List Nat) (m : Nat) (ihH : FalseIndep H m) :
    ∀ (xs : List Val) (ety : Ty) (st : HashSt), (∀ x ∈ xs, sizeOf x ≤ m) →
      compositeSliceRootsLoop H false st xs ety =
        (compositeSliceRootsLoop H false emptyHashSt xs ety).map (fun p => (p.1, st)) := by
  intro xs
  induction xs with
  | nil =>
      intro ety st _
      rw [compRootsLoop_nil, compRootsLoop_nil]
      rfl
  | cons x rest ihx =>
      intro ety st hall
      have hrest := ihx ety st (fun y hy => hall y (List.mem_cons_of_mem x hy))
      rw [compRootsLoop_cons, compRootsLoop_cons]
      rw [siteC_false, siteC_false]
      rw [ihH x ety 0 st (hall x (List.mem_cons_self x rest))]
      cases hemp : newMakeHasherC H false emptyHashSt x ety 0 with
      | ok p =>
          obtain ⟨r, ste⟩ := p
          have hste : ste = emptyHashSt := by
            have := ihH x ety 0 emptyHashSt (hall x (List.mem_cons_self x rest))
            rw [hemp] at this
            simp [Except.map] at this
            exact this
          subst hste
          simp only [Except.map]
          rw [hrest]
          cases hre : compositeSliceRootsLoop H false emptyHashSt rest ety with
          | ok q => obtain ⟨ls, st2⟩ := q; simp [Except.map]
          | error e => simp [Except.map]
      | error e => simp [Except.map]

theorem falseA_fieldsLoop (H : List Nat → List Nat) (m : Nat) (ihH : FalseIndep H m) :
    ∀ (vs : List Val) (fs : List SField) (st : HashSt), (∀ x ∈ vs, sizeOf x ≤ m) →
      fieldsHashLoop H false st vs fs =
        (fieldsHashLoop H false emptyHashSt vs fs).map (fun p => (p.1, st)) := by
  intro vs
  induction vs with
  | nil =>
      intro fs st _
      rw [fieldsLoop_nil, fieldsLoop_nil]
      rfl
  | cons v vrest ihx =>
      intro fs st hall
      cases fs with
      | nil =>
          rw [fieldsLoop_nilfs, fieldsLoop_nilfs]
          rfl
      | cons f frest =>
          cases f with
          | mk fty fcap =>
              have hrest := ihx frest st (fun y hy => hall y (List.mem_cons_of_mem v hy))
              rw [fieldsLoop_cons, fieldsLoop_cons]
              rw [siteC_false, siteC_false]
              rw [ihH v fty fcap st (hall v (List.mem_cons_self v vrest))]
              cases hemp : newMakeHasherC H false emptyHashSt v fty fcap with
              | ok p =>
                  obtain ⟨r, ste⟩ := p
                  have hste : ste = emptyHashSt := by
                    have := ihH v fty fcap emptyHashSt (hall v (List.mem_cons_self v vrest))
                    rw [hemp] at this
                    simp [Except.map] at this
                    exact this
                  subst hste
                  simp only [Except.map]
                  rw [hrest]
                  cases hre : fieldsHashLoop H false emptyHashSt vrest frest with
                  | ok q => obtain ⟨ls, st2⟩ := q; simp [Except.map]
                  | error e => simp [Except.map]
              | error e => simp [Except.map]

/-- With the cache toggle off, the hasher never consults or modifies the
cache state: its run at any state equals the canonical empty-state run
with the state passed through. -/
theorem falseA_hasher (H : List Nat → List Nat) : ∀ (n : Nat), FalseIndep H n := by
  intro n
  induction n with
  | zero =>
      intro v ty cap st hsz
      exact absurd hsz (by have := sizeOf_val_pos v; omega)
  | succ m ih =>
      intro v ty cap st hsz
      by_cases hout : (isBasicType ty || isBasicTypeArray ty) = true
      · rw [hasherC_basic _ _ _ _ _ _ hout, hasherC_basic _ _ _ _ _ _ hout]
        cases newMakeBasicTypeHasher H v ty <;> simp [Except.map]
      · have hout' : (isBasicType ty || isBasicTypeArray ty) = false := by
          revert hout; cases (isBasicType ty || isBasicTypeArray ty) <;> simp
        cases ty with
        | bool => simp [isBasicType] at hout'
        | uint8 => simp [isBasicType] at hout'
        | uint16 => simp [isBasicType] at hout'
        | uint32 => simp [isBasicType] at hout'
        | uint64 => simp [isBasicType] at hout'
        | int32 =>
            rw [hasherC_int32, hasherC_int32]
            simp [Except.map]
        | slice e =>
            cases v with
            | vlist xs =>
                have hall : ∀ x ∈ xs, sizeOf x ≤ m := by
                  intro x hx
                  have := sizeOf_mem_of_list hx
                  omega
                by_cases hbe : (isBasicType e || isBasicTypeArray e) = true
                · rw [hasherC_slice_basic _ _ _ _ _ _ hbe,
                    hasherC_slice_basic _ _ _ _ _ _ hbe]
                  rw [basicSliceHasherC_eq, basicSliceHasherC_eq]
                  rw [falseA_basicLeavesLoop H m ih xs e st hall]
                  cases hL : basicSliceLeavesLoop H false emptyHashSt xs e with
                  | ok p => obtain ⟨ls, ste⟩ := p; simp [Except.map]
                  | error er => simp [Except.map]
                · have hbe' : (isBasicType e || isBasicTypeArray e) = false := by
                    revert hbe; cases (isBasicType e || isBasicTypeArray e) <;> simp
                  rw [hasherC_slice_comp _ _ _ _ _ _ hbe',
                    hasherC_slice_comp _ _ _ _ _ _ hbe']
                  rw [compSliceHasherC_eq, compSliceHasherC_eq]
                  by_cases hz : xs.length = 0 ∧ cap = 0
                  · simp [hz, Except.map]
                  · rw [if_neg hz, if_neg hz]
                    rw [falseA_compRootsLoop H m ih xs e st hall]
                    cases hL : compositeSliceRootsLoop H false emptyHashSt xs e with
                    | ok p => obtain ⟨ls, ste⟩ := p; simp [Except.map]
                    | error er => simp [Except.map]
            | vbool b =>
                rw [hasherC_not_vlist H false st (Val.vbool b) e cap hout' rfl,
                  hasherC_not_vlist H false emptyHashSt (Val.vbool b) e cap hout' rfl]
                simp [Except.map]
            | vuint nn =>
                rw [hasherC_not_vlist H false st (Val.vuint nn) e cap hout' rfl,
                  hasherC_not_vlist H false emptyHashSt (Val.vuint nn) e cap hout' rfl]
                simp [Except.map]
            | vstruct vs =>
                rw [hasherC_not_vlist H false st (Val.vstruct vs) e cap hout' rfl,
                  hasherC_not_vlist H false emptyHashSt (Val.vstruct vs) e cap hout' rfl]
                simp [Except.map]
            | vptrNil =>
                rw [hasherC_not_vlist H false st Val.vptrNil e cap hout' rfl,
                  hasherC_not_vlist H false emptyHashSt Val.vptrNil e cap hout' rfl]
                simp [Except.map]
            | vptrSome x =>
                rw [hasherC_not_vlist H false st (Val.vptrSome x) e cap hout' rfl,
                  hasherC_not_vlist H false emptyHashSt (Val.vptrSome x) e cap hout' rfl]
                simp [Except.map]
        | array e nn =>
            cases v with
            | vlist xs =>
                have hall : ∀ x ∈ xs, sizeOf x ≤ m := by
                  intro x hx
                  have := sizeOf_mem_of_list hx
                  omega
                have harr : arrayLeavesLoop H false st xs e =
                    ((arrayLeavesLoop H false emptyHashSt xs e).1, st) :=
                  falseA_arrayLoop H m ih xs e st hall
                have harrE : arrayLeavesLoop H false emptyHashSt xs e =
                    ((arrayLeavesLoop H false emptyHashSt xs e).1, emptyHashSt) :=
                  falseA_arrayLoop H m ih xs e emptyHashSt hall
                by_cases hba : isBasicTypeArray e = true
                · rw [hasherC_array_basicArr _ _ _ _ _ _ _ hout' hba,
                    hasherC_array_basicArr _ _ _ _ _ _ _ hout' hba]
                  rw [basicArrayHasherC_eq, basicArrayHasherC_eq]
                  rw [harr]
                  conv_rhs => rw [harrE]
                  simp [Except.map]
                · have hba' : isBasicTypeArray e = false := by
                    revert hba; cases isBasicTypeArray e <;> simp
                  rw [hasherC_array_comp _ _ _ _ _ _ _ hout' hba',
                    hasherC_array_comp _ _ _ _ _ _ _ hout' hba']
                  rw [compArrayHasherC_eq, compArrayHasherC_eq]
                  rw [harr]
                  conv_rhs => rw [harrE]
                  simp [Except.map]
            | vbool b =>
                rw [hasherC_array_not_vlist H false st (Val.vbool b) e nn cap hout' rfl,
                  hasherC_array_not_vlist H false emptyHashSt (Val.vbool b) e nn cap hout' rfl]
                simp [Except.map]
            | vuint k =>
                rw [hasherC_array_not_vlist H false st (Val.vuint k) e nn cap hout' rfl,
                  hasherC_array_not_vlist H false emptyHashSt (Val.vuint k) e nn cap hout' rfl]
                simp [Except.map]
            | vstruct vs =>
                rw [hasherC_array_not_vlist H false st (Val.vstruct vs) e nn cap hout' rfl,
                  hasherC_array_not_vlist H false emptyHashSt (Val.vstruct vs) e nn cap hout' rfl]
                simp [Except.map]
            | vptrNil =>
                rw [hasherC_array_not_vlist H false st Val.vptrNil e nn cap hout' rfl,
                  hasherC_array_not_vlist H false emptyHashSt Val.vptrNil e nn cap hout' rfl]
                simp [Except.map]
            | vptrSome x =>
                rw [hasherC_array_not_vlist H false st (Val.vptrSome x) e nn cap hout' rfl,
                  hasherC_array_not_vlist H false emptyHashSt (Val.vptrSome x) e nn cap hout' rfl]
                simp [Except.map]
        | strukt fs =>
            cases v with
            | vstruct vs =>
                have hall : ∀ x ∈ vs, sizeOf x ≤ m := by
                  intro x hx
                  have := sizeOf_mem_of_struct hx
                  omega
                rw [hasherC_strukt, hasherC_strukt]
                rw [falseA_fieldsLoop H m ih vs fs st hall]
                cases hL : fieldsHashLoop H false emptyHashSt vs fs with
                | ok p => obtain ⟨ls, ste⟩ := p; simp [Except.map]
                | error er => simp [Except.map]
            | vbool b =>
                rw [hasherC_not_vstruct H false st (Val.vbool b) fs cap rfl,
                  hasherC_not_vstruct H false emptyHashSt (Val.vbool b) fs cap rfl]
                simp [Except.map]
            | vuint nn =>
                rw [hasherC_not_vstruct H false st (Val.vuint nn) fs cap rfl,
                  hasherC_not_vstruct H false emptyHashSt (Val.vuint nn) fs cap rfl]
                simp [Except.map]
            | vlist xs =>
                rw [hasherC_not_vstruct H false st (Val.vlist xs) fs cap rfl,
                  hasherC_not_vstruct H false emptyHashSt (Val.vlist xs) fs cap rfl]
                simp [Except.map]
            | vptrNil =>
                rw [hasherC_not_vstruct H false st Val.vptrNil fs cap rfl,
                  hasherC_not_vstruct H false emptyHashSt Val.vptrNil fs cap rfl]
                simp [Except.map]
            | vptrSome x =>
                rw [hasherC_not_vstruct H false st (Val.vptrSome x) fs cap rfl,
                  hasherC_not_vstruct H false emptyHashSt (Val.vptrSome x) fs cap rfl]
                simp [Except.map]
        | ptr e =>
            rw [newMakeHasherC_ptr, newMakeHasherC_ptr]
            cases v with
            | vptrNil => simp [newMakePtrHasher, Except.map]
            | vptrSome x =>
                simp only [newMakePtrHasher]
                have hx : sizeOf x ≤ m := by
                  have : sizeOf (Val.vptrSome x) = 1 + sizeOf x := by simp
                  omega
                exact ih x e cap st hx
            | vbool b => simp [newMakePtrHasher, Except.map]
            | vuint nn => simp [newMakePtrHasher, Except.map]
            | vlist xs => simp [newMakePtrHasher, Except.map]
            | vstruct vs => simp [newMakePtrHasher, Except.map]

/-- A successful canonical run leaves the empty state unchanged. -/
theorem pure_ok_state (H : List Nat → List Nat) {v : Val} {ty : Ty} {cap : Nat}
    {r : List Nat} (h : pureRoot H v ty cap = .ok r) :
    newMakeHasherC H false emptyHashSt v ty cap = .ok (r, emptyHashSt) := by
  rw [pureRoot] at h
  have hA := falseA_hasher H (sizeOf v) v ty cap emptyHashSt le_rfl
  cases hres : newMakeHasherC H false emptyHashSt v ty cap with
  | ok p =>
      obtain ⟨r', st'⟩ := p
      rw [hres] at h hA
      simp [Except.map] at h hA
      rw [h, hA]
  | error e => rw [hres] at h; simp [Except.map] at h

/-- Looking a key up after an insertion: the fresh entry shadows the rest. -/
theorem findEntry_insert (st : HashSt) (k : HKey) (r : List Nat) (k' : HKey) :
    findEntry (insertEntry st k r) k' =
      if keyBeq k k' then some r else findEntry st k' := by
  cases hk : keyBeq k k'
  · simp [findEntry, insertEntry, List.find?_cons, hk]
  · simp [findEntry, insertEntry, List.find?_cons, hk]

/-- The simulation property of the cached hasher at level `m`: run from any
coherent state, it produces the canonical cache-free root and leaves a
coherent state behind. -/
def TrueSim (H : List Nat → List Nat) (m : Nat) : Prop :=
  ∀ (v : Val) (ty : Ty) (cap : Nat) (st : HashSt), sizeOf v ≤ m → Coherent H st →
    ∃ st', newMakeHasherC H true st v ty cap =
        (pureRoot H v ty cap).map (fun r => (r, st')) ∧ Coherent H st'

theorem trueSim_site (H : List Nat → List Nat) (m : Nat) (ihH : TrueSim H m)
    (v : Val) (ty : Ty) (cap : Nat) (st : HashSt) (hsz : sizeOf v ≤ m)
    (hcoh : Coherent H st) :
    ∃ st', newLookupSite H true st v ty cap =
        (pureRoot H v ty cap).map (fun r => (r, st')) ∧ Coherent H st' := by
  rw [siteC_true]
  cases hfind : findEntry st (v, ty, cap) with
  | some r =>
      refine ⟨st, ?_, hcoh⟩
      have hpure : newMakeHasherC H false emptyHashSt v ty cap = .ok (r, emptyHashSt) :=
        hcoh v ty cap r hfind
      rw [pureRoot, hpure]
      simp [Except.map]
  | none =>
      obtain ⟨st1, heq, hcoh1⟩ := ihH v ty cap st hsz hcoh
      rw [heq]
      cases hpure : pureRoot H v ty cap with
      | ok r =>
          refine ⟨insertEntry st1 (v, ty, cap) r, ?_, ?_⟩
          · simp [Except.map]
          · intro v' ty' cap' r' hfind'
            rw [findEntry_insert] at hfind'
            by_cases hk : keyBeq (v, ty, cap) (v', ty', cap') = true
            · rw [if_pos hk] at hfind'
              have hkeys := keyBeq_sound hk
              have hv : v = v' := congrArg (fun p => p.1) hkeys
              have ht : ty = ty' := congrArg (fun p => p.2.1) hkeys
              have hc : cap = cap' := congrArg (fun p => p.2.2) hkeys
              have hr : r = r' := by
                simp only [Option.some_inj] at hfind'
                exact hfind'
              rw [← hv, ← ht, ← hc, ← hr]
              exact pure_ok_state H hpure
            · rw [if_neg hk] at hfind'
              exact hcoh1 v' ty' cap' r' hfind'
      | error e =>
          refine ⟨st, ?_, hcoh⟩
          simp [Except.map]

theorem trueSim_compRootsLoop (H : List Nat → List Nat) (m : Nat) (ihH : TrueSim H m) :
    ∀ (xs : List Val) (ety : Ty) (st : HashSt), (∀ x ∈ xs, sizeOf x ≤ m) →
      Coherent H st →
      ∃ st', compositeSliceRootsLoop H true st xs ety =
          (compositeSliceRootsLoop H false emptyHashSt xs ety).map (fun p => (p.1, st')) ∧
        Coherent H st' := by
  intro xs
  induction xs with
  | nil =>
      intro ety st _ hcoh
      exact ⟨st, by rw [compRootsLoop_nil, compRootsLoop_nil]; rfl, hcoh⟩
  | cons x rest ihx =>
      intro ety st hall hcoh
      rw [compRootsLoop_cons, compRootsLoop_cons]
      rw [siteC_false]
      obtain ⟨st1, hsite, hcoh1⟩ :=
        trueSim_site H m ihH x ety 0 st (hall x (List.mem_cons_self x rest)) hcoh
      rw [hsite]
      cases hemp : newMakeHasherC H false emptyHashSt x ety 0 with
      | ok p =>
          obtain ⟨r, ste⟩ := p
          have hste : ste = emptyHashSt := by
            have := falseA_hasher H (sizeOf x) x ety 0 emptyHashSt le_rfl
            rw [hemp] at this
            simp [Except.map] at this
            exact this
          subst hste
          have hpr : pureRoot H x ety 0 = .ok r := by rw [pureRoot, hemp]; rfl
          rw [hpr]
          simp only [Except.map]
          obtain ⟨st2, hrest, hcoh2⟩ :=
            ihx ety st1 (fun y hy => hall y (List.mem_cons_of_mem x hy)) hcoh1
          rw [hrest]
          refine ⟨st2, ?_, hcoh2⟩
          cases hre : compositeSliceRootsLoop H false emptyHashSt rest ety with
          | ok q => obtain ⟨ls, stp⟩ := q; simp [Except.map]
          | error e => simp [Except.map]
      | error e =>
          have hpr : pureRoot H x ety 0 = .error e := by rw [pureRoot, hemp]; rfl
          rw [hpr]
          refine ⟨st, ?_, hcoh⟩
          simp [Except.map]

theorem trueSim_basicLeavesLoop (H : List Nat → List Nat) (m : Nat) (ihH : TrueSim H m) :
    ∀ (xs : List Val) (ety : Ty) (st : HashSt), (∀ x ∈ xs, sizeOf x ≤ m) →
      Coherent H st →
      ∃ st', basicSliceLeavesLoop H true st xs ety =
          (basicSliceLeavesLoop H false emptyHashSt xs ety).map (fun p => (p.1, st')) ∧
        Coherent H st' := by
  intro xs
  induction xs with
  | nil =>
      intro ety st _ hcoh
      exact ⟨st, by rw [basicLeavesLoop_nil, basicLeavesLoop_nil]; rfl, hcoh⟩
  | cons x rest ihx =>
      intro ety st hall hcoh
      rw [basicLeavesLoop_cons, basicLeavesLoop_cons]
      by_cases hbk : valKindBasic x = true
      · simp only [hbk, if_true]
        cases hm : newMakeMarshaler x ety (List.replicate (determineSize x ety) 0) 0 with
        | ok p =>
            obtain ⟨idx, innerBuf⟩ := p
            obtain ⟨st2, hrest, hcoh2⟩ :=
              ihx ety st (fun y hy => hall y (List.mem_cons_of_mem x hy)) hcoh
            rw [hrest]
            refine ⟨st2, ?_, hcoh2⟩
            cases hre : basicSliceLeavesLoop H false emptyHashSt rest ety with
            | ok q => obtain ⟨ls, stp⟩ := q; simp [Except.map]
            | error e => simp [Except.map]
        | error e => exact ⟨st, by simp [Except.map], hcoh⟩
      · simp only [hbk, Bool.false_eq_true, if_false]
        rw [siteC_false]
        obtain ⟨st1, hsite, hcoh1⟩ :=
          trueSim_site H m ihH x ety 0 st (hall x (List.mem_cons_self x rest)) hcoh
        rw [hsite]
        cases hemp : newMakeHasherC H false emptyHashSt x ety 0 with
        | ok p =>
            obtain ⟨r, ste⟩ := p
            have hste : ste = emptyHashSt := by
              have := falseA_hasher H (sizeOf x) x ety 0 emptyHashSt le_rfl
              rw [hemp] at this
              simp [Except.map] at this
              exact this
            subst hste
            have hpr : pureRoot H x ety 0 = .ok r := by rw [pureRoot, hemp]; rfl
            rw [hpr]
            simp only [Except.map]
            obtain ⟨st2, hrest, hcoh2⟩ :=
              ihx ety st1 (fun y hy => hall y (List.mem_cons_of_mem x hy)) hcoh1
            rw [hrest]
            refine ⟨st2, ?_, hcoh2⟩
            cases hre : basicSliceLeavesLoop H false emptyHashSt rest ety with
            | ok q => obtain ⟨ls, stp⟩ := q; simp [Except.map]
            | error e => simp [Except.map]
        | error e =>
            have hpr : pureRoot H x ety 0 = .error e := by rw [pureRoot, hemp]; rfl
            rw [hpr]
            refine ⟨st, ?_, hcoh⟩
            simp [Except.map]

theorem trueSim_arrayLoop (H : List Nat → List Nat) (m : Nat) (ihH : TrueSim H m) :
    ∀ (xs : List Val) (ety : Ty) (st : HashSt), (∀ x ∈ xs, sizeOf x ≤ m) →
      Coherent H st →
      ∃ st', arrayLeavesLoop H true st xs ety =
          ((arrayLeavesLoop H false emptyHashSt xs ety).1, st') ∧ Coherent H st' := by
  intro xs
  induction xs with
  | nil =>
      intro ety st _ hcoh
      exact ⟨st, by rw [arrayLoop_nil, arrayLoop_nil], hcoh⟩
  | cons x rest ihx =>
      intro ety st hall hcoh
      rw [arrayLoop_cons, arrayLoop_cons]
      rw [siteC_false]
      obtain ⟨st1, hsite, hcoh1⟩ :=
        trueSim_site H m ihH x ety 0 st (hall x (List.mem_cons_self x rest)) hcoh
      rw [hsite]
      cases hemp : newMakeHasherC H false emptyHashSt x ety 0 with
      | ok p =>
          obtain ⟨r, ste⟩ := p
          have hste : ste = emptyHashSt := by
            have := falseA_hasher H (sizeOf x) x ety 0 emptyHashSt le_rfl
            rw [hemp] at this
            simp [Except.map] at this
            exact this
          subst hste
          have hpr : pureRoot H x ety 0 = .ok r := by rw [pureRoot, hemp]; rfl
          rw [hpr]
          simp only [Except.map]
          obtain ⟨st2, hrest, hcoh2⟩ :=
            ihx ety st1 (fun y hy => hall y (List.mem_cons_of_mem x hy)) hcoh1
          cases hre : arrayLeavesLoop H false emptyHashSt rest ety with
          | mk ls stp =>
              rw [hre] at hrest
              rw [hrest]
              exact ⟨st2, rfl, hcoh2⟩
      | error e =>
          have hpr : pureRoot H x ety 0 = .error e := by rw [pureRoot, hemp]; rfl
          rw [hpr]
          simp only [Except.map]
          obtain ⟨st2, hrest, hcoh2⟩ :=
            ihx ety st (fun y hy => hall y (List.mem_cons_of_mem x hy)) hcoh
          cases hre : arrayLeavesLoop H false emptyHashSt rest ety with
          | mk ls stp =>
              rw [hre] at hrest
              rw [hrest]
              exact ⟨st2, rfl, hcoh2⟩

theorem trueSim_fieldsLoop (H : List Nat → List Nat) (m : Nat) (ihH : TrueSim H m) :
    ∀ (vs : List Val) (fs : List SField) (st : HashSt), (∀ x ∈ vs, sizeOf x ≤ m) →
      Coherent H st →
      ∃ st', fieldsHashLoop H true st vs fs =
          (fieldsHashLoop H false emptyHashSt vs fs).map (fun p => (p.1, st')) ∧
        Coherent H st' := by
  intro vs
  induction vs with
  | nil =>
      intro fs st _ hcoh
      exact ⟨st, by rw [fieldsLoop_nil, fieldsLoop_nil]; rfl, hcoh⟩
  | cons v vrest ihx =>
      intro fs st hall hcoh
      cases fs with
      | nil =>
          exact ⟨st, by rw [fieldsLoop_nilfs, fieldsLoop_nilfs]; rfl, hcoh⟩
      | cons f frest =>
          cases f with
          | mk fty fcap =>
              rw [fieldsLoop_cons, fieldsLoop_cons]
              rw [siteC_false]
              obtain ⟨st1, hsite, hcoh1⟩ :=
                trueSim_site H m ihH v fty fcap st
                  (hall v (List.mem_cons_self v vrest)) hcoh
              rw [hsite]
              cases hemp : newMakeHasherC H false emptyHashSt v fty fcap with
              | ok p =>
                  obtain ⟨r, ste⟩ := p
                  have hste : ste = emptyHashSt := by
                    have := falseA_hasher H (sizeOf v) v fty fcap emptyHashSt le_rfl
                    rw [hemp] at this
                    simp [Except.map] at this
                    exact this
                  subst hste
                  have hpr : pureRoot H v fty fcap = .ok r := by
                    rw [pureRoot, hemp]; rfl
                  rw [hpr]
                  simp only [Except.map]
                  obtain ⟨st2, hrest, hcoh2⟩ :=
                    ihx frest st1 (fun y hy => hall y (List.mem_cons_of_mem v hy)) hcoh1
                  rw [hrest]
                  refine ⟨st2, ?_, hcoh2⟩
                  cases hre : fieldsHashLoop H false emptyHashSt vrest frest with
                  | ok q => obtain ⟨ls, stp⟩ := q; simp [Except.map]
                  | error e => simp [Except.map]
              | error e =>
                  have hpr : pureRoot H v fty fcap = .error e := by
                    rw [pureRoot, hemp]; rfl
                  rw [hpr]
                  refine ⟨st, ?_, hcoh⟩
                  simp [Except.map]

/-- With the cache toggle on, a run from any coherent state yields the
canonical cache-free root and leaves the cache coherent. -/
theorem trueSim_hasher (H : List Nat → List Nat) : ∀ (n : Nat), TrueSim H n := by
  intro n
  induction n with
  | zero =>
      intro v ty cap st hsz _
      exact absurd hsz (by have := sizeOf_val_pos v; omega)
  | succ m ih =>
      intro v ty cap st hsz hcoh
      by_cases hout : (isBasicType ty || isBasicTypeArray ty) = true
      · rw [hasherC_basic _ _ _ _ _ _ hout]
        rw [pureRoot, hasherC_basic _ _ _ _ _ _ hout]
        refine ⟨st, ?_, hcoh⟩
        cases newMakeBasicTypeHasher H v ty <;> simp [Except.map]
      · have hout' : (isBasicType ty || isBasicTypeArray ty) = false := by
          revert hout; cases (isBasicType ty || isBasicTypeArray ty) <;> simp
        cases ty with
        | bool => simp [isBasicType] at hout'
        | uint8 => simp [isBasicType] at hout'
        | uint16 => simp [isBasicType] at hout'
        | uint32 => simp [isBasicType] at hout'
        | uint64 => simp [isBasicType] at hout'
        | int32 =>
            rw [hasherC_int32, pureRoot, hasherC_int32]
            exact ⟨st, by simp [Except.map], hcoh⟩
        | slice e =>
            cases v with
            | vlist xs =>
                have hall : ∀ x ∈ xs, sizeOf x ≤ m := by
                  intro x hx
                  have := sizeOf_mem_of_list hx
                  omega
                by_cases hbe : (isBasicType e || isBasicTypeArray e) = true
                · rw [hasherC_slice_basic _ _ _ _ _ _ hbe]
                  rw [pureRoot, hasherC_slice_basic _ _ _ _ _ _ hbe]
                  rw [basicSliceHasherC_eq, basicSliceHasherC_eq]
                  obtain ⟨st2, hloop, hcoh2⟩ :=
                    trueSim_basicLeavesLoop H m ih xs e st hall hcoh
                  rw [hloop]
                  refine ⟨st2, ?_, hcoh2⟩
                  cases hre : basicSliceLeavesLoop H false emptyHashSt xs e with
                  | ok p => obtain ⟨ls, stp⟩ := p; simp [Except.map]
                  | error er => simp [Except.map]
                · have hbe' : (isBasicType e || isBasicTypeArray e) = false := by
                    revert hbe; cases (isBasicType e || isBasicTypeArray e) <;> simp
                  rw [hasherC_slice_comp _ _ _ _ _ _ hbe']
                  rw [pureRoot, hasherC_slice_comp _ _ _ _ _ _ hbe']
                  rw [compSliceHasherC_eq, compSliceHasherC_eq]
                  by_cases hz : xs.length = 0 ∧ cap = 0
                  · rw [if_pos hz, if_pos hz]
                    exact ⟨st, by simp [Except.map], hcoh⟩
                  · rw [if_neg hz, if_neg hz]
                    obtain ⟨st2, hloop, hcoh2⟩ :=
                      trueSim_compRootsLoop H m ih xs e st hall hcoh
                    rw [hloop]
                    refine ⟨st2, ?_, hcoh2⟩
                    cases hre : compositeSliceRootsLoop H false emptyHashSt xs e with
                    | ok p => obtain ⟨ls, stp⟩ := p; simp [Except.map]
                    | error er => simp [Except.map]
            | vbool b =>
                rw [hasherC_not_vlist H true st (Val.vbool b) e cap hout' rfl,
                  pureRoot, hasherC_not_vlist H false emptyHashSt (Val.vbool b) e cap hout' rfl]
                exact ⟨st, by simp [Except.map], hcoh⟩
            | vuint k =>
                rw [hasherC_not_vlist H true st (Val.vuint k) e cap hout' rfl,
                  pureRoot, hasherC_not_vlist H false emptyHashSt (Val.vuint k) e cap hout' rfl]
                exact ⟨st, by simp [Except.map], hcoh⟩
            | vstruct vs =>
                rw [hasherC_not_vlist H true st (Val.vstruct vs) e cap hout' rfl,
                  pureRoot, hasherC_not_vlist H false emptyHashSt (Val.vstruct vs) e cap hout' rfl]
                exact ⟨st, by simp [Except.map], hcoh⟩
            | vptrNil =>
                rw [hasherC_not_vlist H true st Val.vptrNil e cap hout' rfl,
                  pureRoot, hasherC_not_vlist H false emptyHashSt Val.vptrNil e cap hout' rfl]
                exact ⟨st, by simp [Except.map], hcoh⟩
            | vptrSome x =>
                rw [hasherC_not_vlist H true st (Val.vptrSome x) e cap hout' rfl,
                  pureRoot, hasherC_not_vlist H false emptyHashSt (Val.vptrSome x) e cap hout' rfl]
                exact ⟨st, by simp [Except.map], hcoh⟩
        | array e nn =>
            cases v with
            | vlist xs =>
                have hall : ∀ x ∈ xs, sizeOf x ≤ m := by
                  intro x hx
                  have := sizeOf_mem_of_list hx
                  omega
                obtain ⟨st2, hloop, hcoh2⟩ :=
                  trueSim_arrayLoop H m ih xs e st hall hcoh
                by_cases hba : isBasicTypeArray e = true
                · rw [hasherC_array_basicArr _ _ _ _ _ _ _ hout' hba]
                  rw [pureRoot, hasherC_array_basicArr _ _ _ _ _ _ _ hout' hba]
                  rw [basicArrayHasherC_eq, basicArrayHasherC_eq]
                  cases hre : arrayLeavesLoop H false emptyHashSt xs e with
                  | mk ls stp =>
                      rw [hre] at hloop
                      rw [hloop]
                      exact ⟨st2, by simp [Except.map], hcoh2⟩
                · have hba' : isBasicTypeArray e = false := by
                    revert hba; cases isBasicTypeArray e <;> simp
                  rw [hasherC_array_comp _ _ _ _ _ _ _ hout' hba']
                  rw [pureRoot, hasherC_array_comp _ _ _ _ _ _ _ hout' hba']
                  rw [compArrayHasherC_eq, compArrayHasherC_eq]
                  cases hre : arrayLeavesLoop H false emptyHashSt xs e with
                  | mk ls stp =>
                      rw [hre] at hloop
                      rw [hloop]
                      exact ⟨st2, by simp [Except.map], hcoh2⟩
            | vbool b =>
                rw [hasherC_array_not_vlist H true st (Val.vbool b) e nn cap hout' rfl,
                  pureRoot,
                  hasherC_array_not_vlist H false emptyHashSt (Val.vbool b) e nn cap hout' rfl]
                exact ⟨st, by simp [Except.map], hcoh⟩
            | vuint k =>
                rw [hasherC_array_not_vlist H true st (Val.vuint k) e nn cap hout' rfl,
                  pureRoot,
                  hasherC_array_not_vlist H false emptyHashSt (Val.vuint k) e nn cap hout' rfl]
                exact ⟨st, by simp [Except.map], hcoh⟩
            | vstruct vs =>
                rw [hasherC_array_not_vlist H true st (Val.vstruct vs) e nn cap hout' rfl,
                  pureRoot,
                  hasherC_array_not_vlist H false emptyHashSt (Val.vstruct vs) e nn cap hout' rfl]
                exact ⟨st, by simp [Except.map], hcoh⟩
            | vptrNil =>
                rw [hasherC_array_not_vlist H true st Val.vptrNil e nn cap hout' rfl,
                  pureRoot,
                  hasherC_array_not_vlist H false emptyHashSt Val.vptrNil e nn cap hout' rfl]
                exact ⟨st, by simp [Except.map], hcoh⟩
            | vptrSome x =>
                rw [hasherC_array_not_vlist H true st (Val.vptrSome x) e nn cap hout' rfl,
                  pureRoot,
                  hasherC_array_not_vlist H false emptyHashSt (Val.vptrSome x) e nn cap hout' rfl]
                exact ⟨st, by simp [Except.map], hcoh⟩
        | strukt fs =>
            cases v with
            | vstruct vs =>
                have hall : ∀ x ∈ vs, sizeOf x ≤ m := by
                  intro x hx
                  have := sizeOf_mem_of_struct hx
                  omega
                rw [hasherC_strukt, pureRoot, hasherC_strukt]
                obtain ⟨st2, hloop, hcoh2⟩ :=
                  trueSim_fieldsLoop H m ih vs fs st hall hcoh
                rw [hloop]
                refine ⟨st2, ?_, hcoh2⟩
                cases hre : fieldsHashLoop H false emptyHashSt vs fs with
                | ok p => obtain ⟨ls, stp⟩ := p; simp [Except.map]
                | error er => simp [Except.map]
            | vbool b =>
                rw [hasherC_not_vstruct H true st (Val.vbool b) fs cap rfl,
                  pureRoot, hasherC_not_vstruct H false emptyHashSt (Val.vbool b) fs cap rfl]
                exact ⟨st, by simp [Except.map], hcoh⟩
            | vuint k =>
                rw [hasherC_not_vstruct H true st (Val.vuint k) fs cap rfl,
                  pureRoot, hasherC_not_vstruct H false emptyHashSt (Val.vuint k) fs cap rfl]
                exact ⟨st, by simp [Except.map], hcoh⟩
            | vlist xs =>
                rw [hasherC_not_vstruct H true st (Val.vlist xs) fs cap rfl,
                  pureRoot, hasherC_not_vstruct H false emptyHashSt (Val.vlist xs) fs cap rfl]
                exact ⟨st, by simp [Except.map], hcoh⟩
            | vptrNil =>
                rw [hasherC_not_vstruct H true st Val.vptrNil fs cap rfl,
                  pureRoot, hasherC_not_vstruct H false emptyHashSt Val.vptrNil fs cap rfl]
                exact ⟨st, by simp [Except.map], hcoh⟩
            | vptrSome x =>
                rw [hasherC_not_vstruct H true st (Val.vptrSome x) fs cap rfl,
                  pureRoot, hasherC_not_vstruct H false emptyHashSt (Val.vptrSome x) fs cap rfl]
                exact ⟨st, by simp [Except.map], hcoh⟩
        | ptr e =>
            rw [newMakeHasherC_ptr, pureRoot, newMakeHasherC_ptr]
            cases v with
            | vptrNil =>
                exact ⟨st, by simp [newMakePtrHasher, Except.map], hcoh⟩
            | vptrSome x =>
                simp only [newMakePtrHasher]
                have hx : sizeOf x ≤ m := by
                  have : sizeOf (Val.vptrSome x) = 1 + sizeOf x := by simp
                  omega
                obtain ⟨st', heq, hcoh'⟩ := ih x e cap st hx hcoh
                rw [pureRoot] at heq
                exact ⟨st', heq, hcoh'⟩
            | vbool b => exact ⟨st, by simp [newMakePtrHasher, Except.map], hcoh⟩
            | vuint k => exact ⟨st, by simp [newMakePtrHasher, Except.map], hcoh⟩
            | vlist xs => exact ⟨st, by simp [newMakePtrHasher, Except.map], hcoh⟩
            | vstruct vs => exact ⟨st, by simp [newMakePtrHasher, Except.map], hcoh⟩

/-- The cache toggle's two paths compute the same root from a coherent state. -/
theorem toggle_agree (H : List Nat → List Nat) (st : HashSt) (v : Val) (ty : Ty)
    (cap : Nat) (hcoh : Coherent H st) :
    (newLookupSite H true st v ty cap).map Prod.fst =
      (newMakeHasherC H false st v ty cap).map Prod.fst := by
  obtain ⟨st', hsite, _⟩ :=
    trueSim_site H (sizeOf v) (trueSim_hasher H (sizeOf v)) v ty cap st le_rfl hcoh
  rw [hsite]
  rw [falseA_hasher H (sizeOf v) v ty cap st le_rfl]
  rw [pureRoot]
  cases newMakeHasherC H false emptyHashSt v ty cap with
  | ok p => simp [Except.map]
  | error e => simp [Except.map]

/-- C6 (cache transparency): starting from any coherent cache state — the
empty state the program boots with is coherent, and every state the hasher
itself builds stays coherent — `HashTreeRoot` and
`HashTreeRootWithCapacity` return the same root with the `useCache` toggle
on as with it off, for every value, descriptor and capacity. -/
theorem c6_cache_transparency (H : List Nat → List Nat) (st : HashSt)
    (v : Val) (ty : Ty) (hcoh : Coherent H st) :
    ((HashTreeRootC H true st v ty).map Prod.fst =
      (HashTreeRootC H false st v ty).map Prod.fst) ∧
    ∀ cap : Nat, (HashTreeRootWithCapacityC H true st v ty cap).map Prod.fst =
      (HashTreeRootWithCapacityC H false st v ty cap).map Prod.fst := by
  constructor
  · exact toggle_agree H st v ty 0 hcoh
  · intro cap
    cases ty with
    | slice e => exact toggle_agree H st v (.slice e) cap hcoh
    | bool => rfl
    | uint8 => rfl
    | uint16 => rfl
    | uint32 => rfl
    | uint64 => rfl
    | int32 => rfl
    | array e nn => rfl
    | strukt fs => rfl
    | ptr e => rfl

/-- Closed witness for C6: the byte slice `[7, 8]` hashed at the empty
cache state, with capacity 5 for the capacity variant. -/
theorem c6_cache_transparency_witness :
    ((HashTreeRootC (fun l => l) true emptyHashSt
        (.vlist [.vuint 7, .vuint 8]) (.slice .uint8)).map Prod.fst =
      (HashTreeRootC (fun l => l) false emptyHashSt
        (.vlist [.vuint 7, .vuint 8]) (.slice .uint8)).map Prod.fst) ∧
    (HashTreeRootWithCapacityC (fun l => l) true emptyHashSt
        (.vlist [.vuint 7, .vuint 8]) (.slice .uint8) 5).map Prod.fst =
      (HashTreeRootWithCapacityC (fun l => l) false emptyHashSt
        (.vlist [.vuint 7, .vuint 8]) (.slice .uint8) 5).map Prod.fst :=
  ⟨(c6_cache_transparency (fun l => l) emptyHashSt
      (.vlist [.vuint 7, .vuint 8]) (.slice .uint8) (coherent_empty _)).1,
   (c6_cache_transparency (fun l => l) emptyHashSt
      (.vlist [.vuint 7, .vuint 8]) (.slice .uint8) (coherent_empty _)).2 5⟩

end SSZ
